import Mathlib

/-!
# Verification of the propositional natural-deduction proof checker

This file gives a shallow embedding, in Lean 4, of the core of the
`Logic-project` repository (phases 1, 2, 4 and 5) and proves or refutes the
frozen claims about it.

Conventions of the embedding:
* Python's mutable `Node` class (a value plus nullable `left`/`right` children)
  is modelled by the inductive type `Node` below, whose `nil` constructor
  stands for Python's `None` child.  Node values are `Char`s, exactly as in the
  source (every value stored is a single character).
* Python exceptions (`IndexError` from popping an empty list, attribute access
  on `None`, failed `int()` conversions, `LogicRuleError`, ...) are modelled by
  `Option`: `none` means "this computation raised".  Every caller in the source
  catches these exceptions and turns them into a fixed result string, which the
  embedding mirrors.
* Python's `str.isalpha` is modelled by `Char.isAlpha`.  (Python's predicate
  also accepts non-ASCII letters; on every character class relevant to the
  claims — ASCII letters, the connectives, `⊥`, `⊤`, parentheses, digits and
  spaces — the two predicates agree.)
* Strings are processed as `List Char` (`String.data`), matching Python's
  character-by-character iteration.
-/

namespace LogicProject

/-- The parse-tree node type of `phases/phase1/logic.py` (`class Node`).
`nil` encodes a `None` child; `node v l r` encodes a `Node` with `value = v`,
`left = l`, `right = r`. -/
inductive Node where
  | nil : Node
  | node (value : Char) (left right : Node) : Node
deriving DecidableEq, Repr

namespace Phase1

/-- `Phase1.tokenize`: drop spaces, keep every other character. -/
def tokenize (expr : List Char) : List Char :=
  expr.filter (fun ch => ch ≠ ' ')

/-- `Phase1.is_operator`. -/
def is_operator (c : Char) : Bool :=
  c = '¬' ∨ c = '∧' ∨ c = '∨' ∨ c = '→' ∨ c = '↔'

/-- `Phase1.presedence` (sic — the source's spelling). -/
def presedence (op : Char) : Nat :=
  if op = '¬' then 1
  else if op = '∧' then 2
  else if op = '∨' then 3
  else if op = '→' then 4
  else if op = '↔' then 5
  else 100

/-- One step of the finite-state scanner of `Phase1.is_valid`.
The state is the pair (automaton state, parenthesis-stack depth); `none`
means the scan already returned `False`.  The parenthesis bookkeeping happens
before the state transition, exactly as in the source. -/
def isValidStep (st : Char × Nat) (c : Char) : Option (Char × Nat) := do
  let (state, depth) := st
  let depth' ←
    if c = '(' then pure (depth + 1)
    else if c = ')' then
      if depth = 0 then none else pure (depth - 1)
    else pure depth
  let state' ←
    if state = 'S' then
      if c = '¬' then pure 'N'
      else if c = '(' then pure 'L'
      else if c.isAlpha then pure 'P'
      else none
    else if state = 'N' then
      if c = '¬' then pure 'N'
      else if c = '(' then pure 'L'
      else if c.isAlpha then pure 'P'
      else none
    else if state = 'P' then
      if c = '∧' ∨ c = '∨' ∨ c = '→' ∨ c = '↔' then pure 'O'
      else if c = ')' then pure 'R'
      else none
    else if state = 'O' then
      if c = '¬' then pure 'N'
      else if c.isAlpha then pure 'P'
      else if c = '(' then pure 'L'
      else none
    else if state = 'L' then
      if c = '¬' then pure 'N'
      else if c = '(' then pure 'L'
      else if c.isAlpha then pure 'P'
      else none
    else if state = 'R' then
      if c = '∧' ∨ c = '∨' ∨ c = '→' ∨ c = '↔' then pure 'O'
      else if c = ')' then pure 'R'
      else none
    else pure state
  pure (state', depth')

/-- `Phase1.is_valid`: run the scanner over the tokens and accept iff the final
state is `P` or `R` with an empty parenthesis stack. -/
def is_valid (expr : List Char) : Bool :=
  match (tokenize expr).foldlM isValidStep ('S', 0) with
  | some (state, depth) => (state = 'P' ∨ state = 'R') ∧ depth = 0
  | none => false

/-- The body of `pop_op` in `Phase1.parse_tree`, applied to one operator `op`
already removed from the operator stack: reduce the operand stack.  A unary `¬`
pops one operand and stores it as the `right` child (the `left` child stays
`None`); a binary operator pops the right operand first, then the left.
`none` models the `IndexError` raised by popping an empty list. -/
def applyOp (op : Char) (props : List Node) : Option (List Node) :=
  if op = '¬' then
    match props with
    | right :: ps => some (Node.node '¬' Node.nil right :: ps)
    | [] => none
  else
    match props with
    | right :: left :: ps => some (Node.node op left right :: ps)
    | _ => none

/-- The `while operators[-1] != '(':` loop of the `)` case of
`Phase1.parse_tree`, followed by discarding the `(` marker.
`none` models the `IndexError` when the operator stack runs out. -/
def popUntilParen : List Char → List Node → Option (List Char × List Node)
  | [], _ => none
  | op :: ops, props =>
    if op = '(' then some (ops, props)
    else
      match applyOp op props with
      | some props' => popUntilParen ops props'
      | none => none

/-- The `while (operators and operators[-1] != '(' and presedence(...) <= presedence(t))`
loop of the operator case of `Phase1.parse_tree`. -/
def popWhilePrec (t : Char) : List Char → List Node → Option (List Char × List Node)
  | [], props => some ([], props)
  | op :: ops, props =>
    if op = '(' then some (op :: ops, props)
    else if presedence op ≤ presedence t then
      match applyOp op props with
      | some props' => popWhilePrec t ops props'
      | none => none
    else some (op :: ops, props)

/-- One iteration of the token loop of `Phase1.parse_tree`.  The machine state
is (operator stack, operand stack), with the most recently pushed element at
the head. -/
def parseStep (st : List Char × List Node) (t : Char) : Option (List Char × List Node) :=
  let (ops, props) := st
  if t = '(' then some ('(' :: ops, props)
  else if t = ')' then popUntilParen ops props
  else if is_operator t then
    match popWhilePrec t ops props with
    | some (ops', props') => some (t :: ops', props')
    | none => none
  else if t.isAlpha then some (ops, Node.node t Node.nil Node.nil :: props)
  else some (ops, props)

/-- The final `while operators: pop_op()` loop of `Phase1.parse_tree`. -/
def popAll : List Char → List Node → Option (List Node)
  | [], props => some props
  | op :: ops, props =>
    match applyOp op props with
    | some props' => popAll ops props'
    | none => none

/-- `Phase1.parse_tree` over a token-level run: tokenize, run the loop, drain
the operator stack, return `proposition[-1]` (the top of the operand stack).
`none` models any `IndexError` raised along the way. -/
def parse_tree (expr : List Char) : Option Node :=
  match (tokenize expr).foldlM parseStep ([], []) with
  | some (ops, props) =>
    match popAll ops props with
    | some (p :: _) => some p
    | _ => none
  | none => none

/-- String-level wrappers, matching the Python entry points that take `str`. -/
def is_validS (s : String) : Bool := is_valid s.data

/-- `Phase1.parse_tree` on a `String` input. -/
def parse_treeS (s : String) : Option Node := parse_tree s.data

end Phase1

namespace Phase2

/-- `Phase2.precedence` (note: distinct from phase 1's `presedence`; the
unrecognised-operator default is 6 here). -/
def precedence (op : Char) : Nat :=
  if op = '¬' then 1
  else if op = '∧' then 2
  else if op = '∨' then 3
  else if op = '→' then 4
  else if op = '↔' then 5
  else 6

/-- `Phase2.needs_parentheses(child, parent, is_left)`.  Both arguments are
real nodes at every call site; the `nil` cases are unreachable and map to
`false` (no parentheses), which is also what the guarding
`if node.left and ...` / `if node.right and ...` in `tree_to_string` gives. -/
def needs_parentheses (child parent : Node) (is_left : Bool) : Bool :=
  match child, parent with
  | Node.node cv _ _, Node.node pv _ _ =>
    if cv.isAlpha ∨ cv = '¬' then false
    else
      let child_prec := precedence cv
      let parent_prec := precedence pv
      if child_prec > parent_prec then true
      else if child_prec = parent_prec then
        if (¬ is_left) ∧ (pv = '→' ∨ pv = '↔') then true else false
      else false
  | _, _ => false

/-- The `node.right and node.right.value in ['∧', '∨', '→', '↔']` test of the
negation case of `tree_to_string`. -/
def isBinaryNode (r : Node) : Bool :=
  match r with
  | Node.node rv _ _ => rv = '∧' ∨ rv = '∨' ∨ rv = '→' ∨ rv = '↔'
  | Node.nil => false

/-- `Phase2.tree_to_string`, producing the character list of the resulting
Python string. -/
def tree_to_string : Node → List Char
  | Node.nil => []
  | Node.node v l r =>
    if v.isAlpha then [v]
    else if v = '¬' then
      let right_str := tree_to_string r
      if right_str = [] then []
      else if isBinaryNode r then
        '¬' :: '(' :: right_str ++ [')']
      else '¬' :: right_str
    else
      let left_str := tree_to_string l
      let right_str := tree_to_string r
      if left_str = [] ∧ right_str = [] then []
      else if left_str = [] then right_str
      else if right_str = [] then left_str
      else
        let left_str' :=
          if l ≠ Node.nil ∧ needs_parentheses l (Node.node v l r) true then
            '(' :: left_str ++ [')']
          else left_str
        let right_str' :=
          if r ≠ Node.nil ∧ needs_parentheses r (Node.node v l r) false then
            '(' :: right_str ++ [')']
          else right_str
        left_str' ++ ' ' :: v :: ' ' :: right_str'

/-- `Phase2.tree_to_string` as a Python string. -/
def tree_to_stringS (t : Node) : String := String.mk (tree_to_string t)

end Phase2

/-! ## Structural equality functions

The repository has three distinct structural-equality routines:
* `LogicRule._nodes_equal` in `phases/phase4/logic.py` — order-sensitive;
* `LogicRule._nodes_equal` in `phases/phase5/logic.py` — commutative for
  `∧`/`∨`;
* `Phase5.nodes_equal` in `phases/phase5/logic.py` — order-sensitive and
  `None`-tolerant.
The phase-4 routine and `Phase5.nodes_equal` compute the same function on
every input that occurs (the phase-4 one is never called with a `None`
argument at the top level; its recursive calls guard both children against
`None` first, which is exactly the `nil`/`nil` ↦ `true`, mixed ↦ `false`
behaviour below). -/

/-- `Phase5.nodes_equal` (and, on its reachable inputs, the phase-4
`LogicRule._nodes_equal`): plain order-sensitive structural equality. -/
def nodesEqualPlain : Node → Node → Bool
  | Node.nil, Node.nil => true
  | Node.node v1 l1 r1, Node.node v2 l2 r2 =>
    if v1 = v2 then nodesEqualPlain l1 l2 && nodesEqualPlain r1 r2
    else false
  | _, _ => false

/-- The phase-5 `LogicRule._nodes_equal`: structural equality that accepts the
children of an `∨` or `∧` node in either orientation.  The inner `eq` helper's
`None` handling is the `nil` clauses below. -/
def nodesEqualComm : Node → Node → Bool
  | Node.nil, Node.nil => true
  | Node.node v1 l1 r1, Node.node v2 l2 r2 =>
    if v1 = v2 then
      if v1 = '∨' ∨ v1 = '∧' then
        (nodesEqualComm l1 l2 && nodesEqualComm r1 r2) ||
          (nodesEqualComm l1 r2 && nodesEqualComm r1 l2)
      else nodesEqualComm l1 l2 && nodesEqualComm r1 r2
    else false
  | _, _ => false

/-! ## Rule catalog

Each `apply` method becomes a function returning `Option Node`; `none` covers
both a raised `LogicRuleError` and any attribute access on `None` (an
`AttributeError`), since every caller catches both and rejects the line.
Accessor conventions: a `nil` argument whose `.value` the Python code would
read yields `none`. -/

/-- Value of a node (only read behind a non-`nil` guard). -/
def Node.valueOf : Node → Char
  | Node.nil => ' '
  | Node.node v _ _ => v

/-- Left child (`None` becomes `nil`). -/
def Node.leftOf : Node → Node
  | Node.nil => Node.nil
  | Node.node _ l _ => l

/-- Right child (`None` becomes `nil`). -/
def Node.rightOf : Node → Node
  | Node.nil => Node.nil
  | Node.node _ _ r => r

namespace Rules

/-- `AndIntro.apply` (phase 4). -/
def andIntro (a b : Node) : Option Node :=
  some (Node.node '∧' a b)

/-- `AndElimLeft.apply` (phase 4). -/
def andElimLeft : Node → Option Node
  | Node.nil => none
  | Node.node v l _ =>
    if v ≠ '∧' ∨ l = Node.nil then none else some l

/-- `AndElimRight.apply` (phase 4). -/
def andElimRight : Node → Option Node
  | Node.nil => none
  | Node.node v _ r =>
    if v ≠ '∧' ∨ r = Node.nil then none else some r

/-- `ImpElim.apply` (phase 4): uses the order-sensitive phase-4 equality for
the antecedent comparison. -/
def impElim : Node → Node → Option Node
  | Node.nil, _ => none
  | Node.node v l r, antecedent =>
    if v ≠ '→' ∨ l = Node.nil ∨ r = Node.nil then none
    else if ¬ nodesEqualPlain l antecedent then none
    else some r

/-- `NegElim.apply` (phase 4).  Note: the negated operand is read from the
`left` child (`negative_node.left`), although the phase-1 parser stores the
operand of `¬` in the `right` child. -/
def negElim : Node → Node → Option Node
  | Node.nil, _ => none
  | _, Node.nil => none
  | Node.node v1 l1 r1, Node.node v2 l2 r2 =>
    if v1 ≠ '¬' ∧ v2 = '¬' then
      -- positive = first, negative = second
      if l2 = Node.nil ∨ ¬ nodesEqualPlain (Node.node v1 l1 r1) l2 then none
      else some (Node.node '⊥' Node.nil Node.nil)
    else if v1 = '¬' ∧ v2 ≠ '¬' then
      -- negative = first, positive = second
      if l1 = Node.nil ∨ ¬ nodesEqualPlain (Node.node v2 l2 r2) l1 then none
      else some (Node.node '⊥' Node.nil Node.nil)
    else none

/-- `DoubleNegElim.apply` (phase 4): also reads `left` children. -/
def doubleNegElim : Node → Option Node
  | Node.nil => none
  | Node.node v l _ =>
    if v ≠ '¬' ∨ l = Node.nil then none
    else
      match l with
      | Node.nil => none
      | Node.node iv il _ =>
        if iv ≠ '¬' ∨ il = Node.nil then none else some il

/-- `ModusTollens.apply` (phase 4): also reads the negation's `left` child. -/
def modusTollens : Node → Node → Option Node
  | Node.nil, _ => none
  | Node.node v l r, negc =>
    if v ≠ '→' ∨ l = Node.nil ∨ r = Node.nil then none
    else
      match negc with
      | Node.nil => none
      | Node.node nv nl _ =>
        if nv ≠ '¬' ∨ nl = Node.nil then none
        else if ¬ nodesEqualPlain nl r then none
        else some (Node.node '¬' l Node.nil)

/-- `DoubleNegIntro.apply` (phase 4): builds the two negations with `left`
children (`right` stays `None`). -/
def doubleNegIntro (a : Node) : Option Node :=
  some (Node.node '¬' (Node.node '¬' a Node.nil) Node.nil)

/-- `OrIntroLeft.apply` (phase 5): its first statement evaluates
`LogicSymbol.OR.value`, but the `LogicSymbol` enum has no `OR` member, so the
call raises `AttributeError` before any comparison can run — it never
succeeds. -/
def orIntroLeft : Node → Node → Option Node
  | _, _ => none

/-- `OrIntroRight.apply` (phase 5): raises `AttributeError` at its
`LogicSymbol.OR` access (no such enum member) — it never succeeds. -/
def orIntroRight : Node → Node → Option Node
  | _, _ => none

/-- `OrElim.apply` (phase 5): raises `AttributeError` at its
`LogicSymbol.OR` access (no such enum member) — it never succeeds. -/
def orElim : Node → Node → Node → Option Node
  | _, _, _ => none

/-- `ImpIntro.apply` (phase 5): unconditionally builds the implication. -/
def impIntro (a c : Node) : Option Node :=
  some (Node.node '→' a c)

/-- `FalseElim.apply` (phase 5). -/
def falseElim : Node → Node → Option Node
  | Node.nil, _ => none
  | Node.node v _ _, target =>
    if v ≠ '⊥' then none else some target

/-- `PBC.apply` (phase 5): returns the `right` child of the refuted
assumption. -/
def pbc : Node → Node → Option Node
  | Node.nil, _ => none
  | Node.node v _ r, contradiction =>
    if v ≠ '¬' then none
    else
      match contradiction with
      | Node.nil => none
      | Node.node cv _ _ => if cv ≠ '⊥' then none else some r

/-- `NegIntro.apply` (phase 5): builds `¬A` with the operand in the `right`
child, like the parser. -/
def negIntro : Node → Node → Option Node
  | _, Node.nil => none
  | assumption, Node.node cv _ _ =>
    if cv ≠ '⊥' then none
    else some (Node.node '¬' Node.nil assumption)

/-- `LEM.apply` (phase 5): after building `¬A` it evaluates
`Node(LogicSymbol.OR.value)`, but the `LogicSymbol` enum has no `OR` member,
so the call raises `AttributeError` — it never returns a disjunction. -/
def lem (a : Node) : Option Node := none

/-- `CopyRule.apply` (phase 5). -/
def copyRule (a : Node) : Option Node := some a

end Rules

/-! ## Proof line parser (`NaturalDeductionParser` of phase 5) -/

/-- A reference in a rule clause: a bare line number or a `(start, end)`
block. -/
inductive Ref where
  | line (n : Nat) : Ref
  | block (s e : Nat) : Ref
deriving DecidableEq, Repr

/-- A parsed proof line (`LogicLine` of phase 5).  Scope markers carry their
marker name in `rule_name` with `line_number = none` and `formula = none`. -/
structure LogicLine where
  line_number : Option Nat
  formula : Option Node
  rule_name : String
  refs : List Ref
  indent : Nat
deriving DecidableEq, Repr

/-- Python's whitespace test used by `str.strip` (space, tab, newline,
carriage return cover every input the program sees). -/
def isPySpace (c : Char) : Bool := c.isWhitespace

/-- `str.strip()`. -/
def pyStrip (l : List Char) : List Char :=
  ((l.dropWhile isPySpace).reverse.dropWhile isPySpace).reverse

/-- `str.split(sep)` for a single-character separator. -/
def splitOnChar (sep : Char) : List Char → List (List Char)
  | [] => [[]]
  | c :: rest =>
    if c = sep then [] :: splitOnChar sep rest
    else
      match splitOnChar sep rest with
      | part :: parts => (c :: part) :: parts
      | [] => [[c]]

/-- `str.split('    ')`: split on each occurrence of exactly four spaces,
scanning left to right. -/
def splitOnFourSpaces : List Char → List (List Char)
  | ' ' :: ' ' :: ' ' :: ' ' :: rest => [] :: splitOnFourSpaces rest
  | c :: rest =>
    match splitOnFourSpaces rest with
    | part :: parts => (c :: part) :: parts
    | [] => [[c]]
  | [] => [[]]

/-- `int(s)` on an already-stripped string: digits only.  (Python also accepts
an optional sign and non-ASCII digits; no input relevant to the claims uses
those.) -/
def pyInt (l : List Char) : Option Nat :=
  let s := pyStrip l
  if s = [] then none
  else if s.all Char.isDigit then
    some (s.foldl (fun acc c => acc * 10 + (c.toNat - '0'.toNat)) 0)
  else none

/-- The `while line.startswith('  ')` indentation counter of
`NaturalDeductionParser.parse`. -/
def countIndent : List Char → Nat × List Char
  | ' ' :: ' ' :: rest =>
    let (n, r) := countIndent rest
    (n + 1, r)
  | l => (0, l)

/-- Parse one reference token (already stripped): `INTEGER` or
`INTEGER-INTEGER`. -/
def parseRef (ref : List Char) : Option Ref :=
  if '-' ∈ ref then
    match splitOnChar '-' ref with
    | [a, b] => do
      let s ← pyInt a
      let e ← pyInt b
      pure (Ref.block s e)
    | _ => none
  else
    match pyInt ref with
    | some n => some (Ref.line n)
    | none => none

/-- Parse one physical proof line.  Result: `none` — the line raised a parse
error (aborting the whole proof parse); `some none` — blank line, skipped;
`some (some l)` — a parsed `LogicLine`. -/
def parseProofLine (raw : List Char) : Option (Option LogicLine) :=
  if pyStrip raw = [] then some none
  else
    let (indent, rest) := countIndent raw
    let line := pyStrip rest
    if line = "BeginScope".data then
      some (some ⟨none, none, "BeginScope", [], indent⟩)
    else if line = "EndScope".data then
      some (some ⟨none, none, "EndScope", [], indent⟩)
    else
      let parts := ((splitOnFourSpaces line).map pyStrip).filter (fun p => p ≠ [])
      match parts with
      | p0 :: p1 :: p2 :: _ => do
        let n ← pyInt p0
        let node ← Phase1.parse_tree p1
        if ',' ∈ p2 then
          match (splitOnChar ',' p2).map pyStrip with
          | rn :: rawRefs => do
            let refs ← rawRefs.mapM parseRef
            pure (some ⟨some n, some node, String.mk rn, refs, indent⟩)
          | [] => none
        else
          pure (some ⟨some n, some node, String.mk p2, [], indent⟩)
      | _ => none

/-- `NaturalDeductionParser.parse`: split the (stripped) input into physical
lines and parse each; any line error aborts the parse (`none`). -/
def parseProof (input : List Char) : Option (List LogicLine) := do
  let rawLines := splitOnChar '\n' (pyStrip input)
  let parsed ← rawLines.mapM parseProofLine
  pure (parsed.filterMap id)

/-! ## The proof verifier (`Phase5.process`) -/

/-- `line_map`: the dictionary built from the numbered lines; in case of a
duplicate line number the later line wins, as with a Python `dict`. -/
def lineMap (lines : List LogicLine) (n : Nat) : Option LogicLine :=
  (lines.filter (fun l => l.line_number = some n)).getLast?

/-- The formula stored at line `n` of the map (`line_map[n].formula`):
`none` models a `KeyError`; a stored `None` formula becomes `nil` (equivalent
at the verdict level, since every rule either crashes on the `None` or fails
the final structural comparison). -/
def getF (lm : Nat → Option LogicLine) (n : Nat) : Option Node :=
  (lm n).map (fun l => l.formula.getD Node.nil)

/-- `line_map[n].rule_name`; `none` models a missing key. -/
def getR (lm : Nat → Option LogicLine) (n : Nat) : Option String :=
  (lm n).map (fun l => l.rule_name)

/-- Verifier state: the established line numbers (`valid_lines`, a set queried
only through membership) and the scope stack (`scope_stack`, innermost level
first; the source keeps the base level first and appends/pops at the end).
`scope_assumptions` and `current_scope_level` are written by `process` but
never read, so they carry no behaviour and are omitted. -/
structure VState where
  valid : List Nat
  scopes : List (List Nat)
deriving Repr, DecidableEq

/-- Add a line number to the innermost scope level (`scope_stack[-1].add`). -/
def addTop (n : Nat) : List (List Nat) → List (List Nat)
  | top :: rest => (n :: top) :: rest
  | [] => []

/-- `rule_name_to_class(name)` is truthy: the name maps to an actual rule
class (note `"Premise"` maps to `None` and unknown names are absent). -/
def ruleKnown (name : String) : Bool :=
  name = "Assumption" ∨ name = "∧i" ∨ name = "∧e1" ∨ name = "∧e2" ∨
  name = "→e" ∨ name = "¬e" ∨ name = "¬¬e" ∨ name = "MT" ∨ name = "¬¬i" ∨
  name = "¬i" ∨ name = "Copy" ∨ name = "∨i1" ∨ name = "∨i2" ∨ name = "∨e" ∨
  name = "→i" ∨ name = "⊥e" ∨ name = "PBC" ∨ name = "LEM"

/-- The final `rule._nodes_equal(expected_node, line.formula)` comparison for
a phase-5 rule class (commutative equality); a `None` on either side makes the
Python comparison raise, rejecting the line. -/
def finalComm (expected : Node) (lf : Option Node) : Bool :=
  match lf with
  | some f => if expected = Node.nil ∨ f = Node.nil then false else nodesEqualComm expected f
  | none => false

/-- The same final comparison for a phase-4 rule class (plain equality). -/
def finalPlain (expected : Node) (lf : Option Node) : Bool :=
  match lf with
  | some f => if expected = Node.nil ∨ f = Node.nil then false else nodesEqualPlain expected f
  | none => false

/-- `range(start, end + 1)` of the `→i` branch. -/
def rangeList (s e : Nat) : List Nat := List.range' s (e + 1 - s)

/-- The rule branches of the `try:` block of `Phase5.process`, for a line `L`
numbered `n` whose rule is neither `Premise` nor `Assumption` and is known.
Returns `true` iff the line is accepted (reaches the `valid_lines.add`);
every raised exception or explicit rejection yields `false` — the caller
turns `false` into `"Invalid Deduction at Line n"`. -/
def checkRule (lm : Nat → Option LogicLine) (valid : List Nat)
    (L : LogicLine) (n : Nat) : Bool :=
  let refs := L.refs
  let lf := L.formula
  if L.rule_name = "LEM" then
    -- `len(line.refs) != 0` rejects; every surviving path then evaluates
    -- `expected_formula.value != LogicSymbol.OR.value` (phase5/logic.py:382),
    -- which raises `AttributeError` (the `LogicSymbol` enum has no `OR`
    -- member) and is rejected by the blanket `except` — a LEM line is never
    -- accepted.
    false
  else if L.rule_name = "→i" then
    match refs with
    | [Ref.block s e] =>
      if (getR lm s).isNone ∨ (getR lm e).isNone then false
      else if getR lm s ≠ some "Assumption" then false
      else if ¬ (rangeList s e).all (fun i => i ∈ valid) then false
      else
        match getF lm s, getF lm e with
        | some a, some c =>
          match Rules.impIntro a c with
          | some expected => finalComm expected lf
          | none => false
        | _, _ => false
    | _ => false
  else if L.rule_name = "¬i" then
    match refs with
    | [Ref.block s e] =>
      if (getR lm s).isNone ∨ getR lm s ≠ some "Assumption" then false
      else if (getR lm e).isNone then false
      else
        match getF lm s, getF lm e with
        | some a, some contra =>
          match Rules.negIntro a contra with
          | some expected => finalComm expected lf
          | none => false
        | _, _ => false
    | _ => false
  else if L.rule_name = "PBC" then
    match refs with
    | [Ref.block s e] =>
      if (getR lm s).isNone ∨ getR lm s ≠ some "Assumption" then false
      else if (getR lm e).isNone then false
      else
        match getF lm s, getF lm e with
        | some a, some contra =>
          match Rules.pbc a contra with
          | some expected => finalComm expected lf
          | none => false
        | _, _ => false
    | _ => false
  else if L.rule_name = "⊥e" then
    match refs with
    | [Ref.line r] =>
      if r ∈ valid then
        match getF lm r, lf with
        | some contra, some target =>
          match Rules.falseElim contra target with
          | some expected => finalComm expected lf
          | none => false
        | _, _ => false
      else false
    | _ => false
  else if L.rule_name = "∨i1" then
    -- the branch's reference checks reject; otherwise `rule.apply()` raises
    -- `AttributeError` at `OrIntroLeft`'s `LogicSymbol.OR` access
    -- (phase5/logic.py:69) — a ∨i1 line is never accepted.
    false
  else if L.rule_name = "∨i2" then
    -- symmetric: `OrIntroRight.apply` raises at its `LogicSymbol.OR` access
    -- (phase5/logic.py:89) — a ∨i2 line is never accepted.
    false
  else if L.rule_name = "∨e" then
    -- the branch's many precondition checks reject; every surviving path then
    -- evaluates `disjunction_node.value != LogicSymbol.OR.value`
    -- (phase5/logic.py:536), which raises `AttributeError` (no `OR` enum
    -- member) — a ∨e line is never accepted, and the indent comparison of the
    -- two referenced assumptions (phase5/logic.py:548) below that access is
    -- dead code.
    false
  else if L.rule_name = "∧i" then
    match refs with
    | [Ref.line r1, Ref.line r2] =>
      if r1 ∈ valid ∧ r2 ∈ valid then
        match getF lm r1, getF lm r2 with
        | some f1, some f2 =>
          match Rules.andIntro f1 f2 with
          | some expected => finalPlain expected lf
          | none => false
        | _, _ => false
      else false
    | _ => false
  else if L.rule_name = "∧e1" then
    match refs with
    | [Ref.line r] =>
      if r ∈ valid then
        match getF lm r with
        | some f =>
          match Rules.andElimLeft f with
          | some expected => finalPlain expected lf
          | none => false
        | none => false
      else false
    | _ => false
  else if L.rule_name = "∧e2" then
    match refs with
    | [Ref.line r] =>
      if r ∈ valid then
        match getF lm r with
        | some f =>
          match Rules.andElimRight f with
          | some expected => finalPlain expected lf
          | none => false
        | none => false
      else false
    | _ => false
  else if L.rule_name = "→e" then
    match refs with
    | [Ref.line r1, Ref.line r2] =>
      if r1 ∈ valid ∧ r2 ∈ valid then
        match getF lm r1, getF lm r2 with
        | some f1, some f2 =>
          match Rules.impElim f1 f2 with
          | some expected => finalPlain expected lf
          | none => false
        | _, _ => false
      else false
    | _ => false
  else if L.rule_name = "¬e" then
    match refs with
    | [Ref.line r1, Ref.line r2] =>
      if r1 ∈ valid ∧ r2 ∈ valid then
        match getF lm r1, getF lm r2 with
        | some f1, some f2 =>
          match Rules.negElim f1 f2 with
          | some expected => finalPlain expected lf
          | none => false
        | _, _ => false
      else false
    | _ => false
  else if L.rule_name = "¬¬e" then
    match refs with
    | [Ref.line r] =>
      if r ∈ valid then
        match getF lm r with
        | some f =>
          match Rules.doubleNegElim f with
          | some expected => finalPlain expected lf
          | none => false
        | none => false
      else false
    | _ => false
  else if L.rule_name = "¬¬i" then
    match refs with
    | [Ref.line r] =>
      if r ∈ valid then
        match getF lm r with
        | some f =>
          match Rules.doubleNegIntro f with
          | some expected => finalPlain expected lf
          | none => false
        | none => false
      else false
    | _ => false
  else if L.rule_name = "MT" then
    match refs with
    | [Ref.line r1, Ref.line r2] =>
      if r1 ∈ valid ∧ r2 ∈ valid then
        match getF lm r1, getF lm r2 with
        | some f1, some f2 =>
          match Rules.modusTollens f1 f2 with
          | some expected => finalPlain expected lf
          | none => false
        | _, _ => false
      else false
    | _ => false
  else if L.rule_name = "Copy" then
    match refs with
    | [Ref.line r] =>
      if r ∈ valid then
        match getF lm r with
        | some f =>
          match Rules.copyRule f with
          | some expected => finalComm expected lf
          | none => false
        | none => false
      else false
    | _ => false
  else false

/-- One iteration of the main loop of `Phase5.process` on a single parsed
line.  `Except.error` carries the terminal result string of an early
return. -/
def lineStep (lm : Nat → Option LogicLine) (L : LogicLine) (st : VState) :
    Except String VState :=
  match L.line_number with
  | none =>
    if L.rule_name = "BeginScope" then Except.ok ⟨st.valid, [] :: st.scopes⟩
    else if L.rule_name = "EndScope" then
      if st.scopes.length ≤ 1 then
        Except.error "Invalid Deduction: unmatched EndScope"
      else Except.ok ⟨st.valid, st.scopes.tail⟩
    else Except.ok st
  | some n =>
    if L.rule_name = "Premise" then Except.ok st
    else if L.rule_name = "Assumption" then
      Except.ok ⟨n :: st.valid, addTop n st.scopes⟩
    else if ruleKnown L.rule_name then
      if checkRule lm st.valid L n then
        Except.ok ⟨n :: st.valid, addTop n st.scopes⟩
      else Except.error ("Invalid Deduction at Line " ++ toString n)
    else Except.error ("Invalid Deduction at Line " ++ toString n)

/-- The remaining pass of `Phase5.process` from a given state. -/
def processLines (lm : Nat → Option LogicLine) :
    List LogicLine → VState → String
  | [], _ => "Valid Deduction"
  | L :: rest, st =>
    match lineStep lm L st with
    | Except.ok st' => processLines lm rest st'
    | Except.error msg => msg

/-- The `Premise` pre-pass over `line_map.items()`: every distinct line number
whose (last) line is a `Premise` is valid from the start and recorded in the
base scope level. -/
def premiseNums (lines : List LogicLine) : List Nat :=
  ((lines.filterMap (fun l => l.line_number)).dedup).filter
    (fun n => getR (lineMap lines) n = some "Premise")

/-- The initial verifier state. -/
def initState (lines : List LogicLine) : VState :=
  ⟨premiseNums lines, [premiseNums lines]⟩

/-- `Phase5.process` on the parsed line list. -/
def verifyLines (lines : List LogicLine) : String :=
  processLines (lineMap lines) lines (initState lines)

/-- `Phase5.process` end to end.  A parse failure produces the
`"Invalid input format: ..."` message; its exception detail is irrelevant to
every claim and is elided. -/
def phase5_process (input : List Char) : String :=
  match parseProof input with
  | none => "Invalid input format"
  | some lines => verifyLines lines

/-- `Phase5.process` on a `String` input. -/
def phase5_processS (s : String) : String := phase5_process s.data

/-! ## Shared abbreviations and helper lemmas -/

/-- The atom `p` as a parse-tree node. -/
def atomP : Node := Node.node 'p' Node.nil Node.nil

/-- The atom `q` as a parse-tree node. -/
def atomQ : Node := Node.node 'q' Node.nil Node.nil

/-- `¬t` in the layout the phase-1 parser produces (operand in `right`). -/
def notP (t : Node) : Node := Node.node '¬' Node.nil t

/-- Plain structural equality is literal equality of the embedded trees. -/
theorem nodesEqualPlain_iff_eq (a b : Node) : nodesEqualPlain a b = true ↔ a = b := by
  induction a generalizing b with
  | nil => cases b <;> simp [nodesEqualPlain]
  | node v l r ihl ihr =>
    cases b with
    | nil => simp [nodesEqualPlain]
    | node v' l' r' =>
      simp [nodesEqualPlain, ihl, ihr]

/-- Commutative structural equality is reflexive. -/
theorem nodesEqualComm_refl (a : Node) : nodesEqualComm a a = true := by
  induction a with
  | nil => simp [nodesEqualComm]
  | node v l r ihl ihr =>
    by_cases h : v = '∨' ∨ v = '∧' <;> simp [nodesEqualComm, h, ihl, ihr]

/-- Number of real nodes of a tree. -/
def Node.size : Node → Nat
  | Node.nil => 0
  | Node.node _ l r => l.size + r.size + 1

/-- Commutative structural equality only relates trees of equal size. -/
theorem nodesEqualComm_size {a b : Node} (h : nodesEqualComm a b = true) :
    a.size = b.size := by
  induction a generalizing b with
  | nil => cases b with
    | nil => rfl
    | node v l r => simp [nodesEqualComm] at h
  | node v l r ihl ihr =>
    cases b with
    | nil => simp [nodesEqualComm] at h
    | node v' l' r' =>
      simp [nodesEqualComm] at h
      obtain ⟨hv, hrest⟩ := h
      by_cases hcase : v = '∨' ∨ v = '∧'
      · simp [hcase] at hrest
        rcases hrest with ⟨h1, h2⟩ | ⟨h1, h2⟩
        · simp [Node.size, ihl h1, ihr h2]
        · simp only [Node.size, ihl h1, ihr h2]
          omega
      · simp [hcase] at hrest
        simp [Node.size, ihl hrest.1, ihr hrest.2]

/-! ## Claim C3 — parser totality on validated input -/

/-- **C3** (code bug): the well-formedness scanner accepts the doubly negated
formula `¬¬p` (its automaton has an explicit `N → N` transition for stacked
negations), but `parse_tree` raises an `IndexError` on it: the incoming `¬`
pops the pending `¬` (the `≤` precedence comparison) before any operand
exists.  So a parse failure can arise on well-formed input, contradicting the
claim. -/
theorem C3_isValid_accepts_but_parse_crashes :
    Phase1.is_validS "¬¬p" = true ∧ Phase1.parse_treeS "¬¬p" = none := by
  constructor <;> rfl

/-! ## Claim C6 — formula alphabet -/

/-- **C6** (code bug): the scanner rejects `⊥` and `⊤` outright (they are
neither letters, operators nor parentheses, so the automaton's `else` branches
fire), and `parse_tree` fails on them (the tokens are silently skipped and the
operand stack stays empty, so `proposition[-1]` raises).  The claim — and the
repository's own `test_valid_false_elimination`, which needs a proof line with
formula `⊥` to verify — requires both to succeed. -/
theorem C6_bottom_top_rejected :
    Phase1.is_validS "⊥" = false ∧ Phase1.is_validS "⊤" = false ∧
    Phase1.is_validS "p ∧ ⊥" = false ∧
    Phase1.parse_treeS "⊥" = none ∧ Phase1.parse_treeS "⊤" = none := by
  refine ⟨rfl, rfl, rfl, rfl, rfl⟩

/-! ## Claim C4 — negation elimination -/

/-- **C4** (code bug): the phase-1 parser stores the operand of `¬` in the
`right` child (`parse_treeS "¬p"` below), but `NegElim.apply` reads it from
`negative_node.left`; on parser-produced input the rule therefore always
raises `Nodes must be A and ¬A` instead of returning `⊥`, in either argument
order.  The repository's own `test_neg_elim_success` expects `⊥`. -/
theorem C4_negElim_fails_on_parsed_negation :
    Phase1.parse_treeS "¬p" = some (notP atomP) ∧
    Rules.negElim atomP (notP atomP) = none ∧
    Rules.negElim (notP atomP) atomP = none := by
  refine ⟨rfl, rfl, rfl⟩

/-! ## Claim C1 — scope discipline -/

/-- The failing proof text for C1: line 2 lives in a scope that is closed
before line 3, and line 3 refers to it by its bare number. -/
def c1Text : String :=
  "1    p    Premise\nBeginScope\n2    q    Assumption\nEndScope\n3    q    Copy, 2"

/-- **C1** (code bug): `EndScope` pops the scope stack but never removes the
closed scope's lines from `valid_lines`, so the bare reference `Copy, 2` into
the closed scope is accepted and the whole proof verifies — the claim (and the
intent documented by the repository's `test_invalid_scope_access_violation`)
requires it to be rejected. -/
theorem C1_closed_scope_reference_accepted :
    phase5_processS c1Text = "Valid Deduction" := by
  rfl

/-! ## Claim C5 — commutative structural equality -/

/-- **C5** counterexample: the phase-4 `LogicRule._nodes_equal` — the equality
used by the phase-4 rule classes (Modus Tollens, `→e`, `¬e`, `∧i`, ...) and,
as `Phase5.nodes_equal`, by the verifier's own shape checks — does **not**
treat `∧` commutatively: `p∧q` and `q∧p` compare unequal. -/
theorem C5_phase4_equality_not_commutative :
    nodesEqualPlain (Node.node '∧' atomP atomQ) (Node.node '∧' atomQ atomP) = false := by
  rfl

/-- **C5** (corrected): only the phase-5 rule-class equality is commutative
for `∧`/`∨` (first two conjuncts, for all trees); the phase-4 rule equality
and the verifier's `nodes_equal` are order-sensitive (last conjunct). -/
theorem C5_commutativity_only_in_phase5_equality :
    (∀ a b : Node,
      nodesEqualComm (Node.node '∧' a b) (Node.node '∧' b a) = true ∧
      nodesEqualComm (Node.node '∨' a b) (Node.node '∨' b a) = true) ∧
    nodesEqualPlain (Node.node '∧' atomP atomQ) (Node.node '∧' atomQ atomP) = false := by
  refine ⟨fun a b => ⟨?_, ?_⟩, rfl⟩ <;>
    simp [nodesEqualComm, nodesEqualComm_refl]

/-! ## Claim C8 — unmatched EndScope -/

/-- **C8** (confirmed): whenever the pass reaches an `EndScope` marker while
the scope stack holds only the base level, it returns exactly
`"Invalid Deduction: unmatched EndScope"`, whatever lines remain — the
remainder of the pass is short-circuited. -/
theorem C8_unmatched_endscope (lm : Nat → Option LogicLine)
    (rest : List LogicLine) (st : VState) (i : Nat)
    (h : st.scopes.length ≤ 1) :
    processLines lm (⟨none, none, "EndScope", [], i⟩ :: rest) st =
      "Invalid Deduction: unmatched EndScope" := by
  simp [processLines, lineStep, h]

/-- Closed instance of `C8_unmatched_endscope` at a concrete state and proof
suffix. -/
theorem C8_unmatched_endscope_witness :
    (VState.mk ([] : List Nat) [[]]).scopes.length ≤ 1 ∧
    processLines (fun _ => none) [⟨none, none, "EndScope", [], 0⟩] ⟨[], [[]]⟩ =
      "Invalid Deduction: unmatched EndScope" :=
  ⟨by decide, C8_unmatched_endscope (fun _ => none) [] ⟨[], [[]]⟩ 0 (by decide)⟩

/-! ## Parser invariant: no parse tree is rooted at `⊥` (or is `None`)

`parse_tree` only builds nodes out of letters (`isAlpha` tokens) and symbols
taken from the operator stack, which holds only `(` markers and operator
characters — never `⊥` or `⊤`.  This invariant decides the `¬i`/`PBC`/`⊥e`
branches of the verifier: their required `⊥`-rooted formula can never be
produced by the parser. -/

/-- Characters that can sit on the parser's operator stack. -/
def stackOK (op : Char) : Prop := op = '(' ∨ Phase1.is_operator op = true

/-- Nodes that can sit on the parser's operand stack: real nodes whose root is
not `⊥`. -/
def nodeOK (t : Node) : Prop := t ≠ Node.nil ∧ t.valueOf ≠ '⊥'

theorem stackOK_ne_bottom {op : Char} (h : stackOK op) : op ≠ '⊥' := by
  rcases h with rfl | h
  · decide
  · simp [Phase1.is_operator] at h
    rcases h with rfl | rfl | rfl | rfl | rfl <;> decide

theorem applyOp_ok {op : Char} {props props' : List Node} (hop : stackOK op)
    (hp : ∀ x ∈ props, nodeOK x) (h : Phase1.applyOp op props = some props') :
    ∀ x ∈ props', nodeOK x := by
  unfold Phase1.applyOp at h
  split_ifs at h with hneg
  · cases props with
    | nil => exact absurd h (by simp)
    | cons r ps =>
      injection h with h
      subst h
      intro x hx
      rcases List.mem_cons.mp hx with rfl | hx'
      · exact ⟨by simp, by simp [Node.valueOf]⟩
      · exact hp x (List.mem_cons_of_mem _ hx')
  · match props, h with
    | r :: l :: ps, h =>
      injection h with h
      subst h
      intro x hx
      rcases List.mem_cons.mp hx with rfl | hx'
      · exact ⟨by simp, by simpa [Node.valueOf] using stackOK_ne_bottom hop⟩
      · exact hp x (List.mem_cons_of_mem _ (List.mem_cons_of_mem _ hx'))

theorem popUntilParen_ok : ∀ {ops : List Char} {props : List Node}
    {ops' : List Char} {props' : List Node},
    (∀ o ∈ ops, stackOK o) → (∀ x ∈ props, nodeOK x) →
    Phase1.popUntilParen ops props = some (ops', props') →
    (∀ o ∈ ops', stackOK o) ∧ (∀ x ∈ props', nodeOK x) := by
  intro ops
  induction ops with
  | nil => intro _ _ _ _ _ h; exact absurd h (by simp [Phase1.popUntilParen])
  | cons op ops ih =>
    intro props ops' props' hq hp h
    rw [Phase1.popUntilParen] at h
    split_ifs at h with hpar
    · injection h with h
      injection h with h1 h2
      subst h1; subst h2
      exact ⟨fun o ho => hq o (List.mem_cons_of_mem _ ho), hp⟩
    · cases happ : Phase1.applyOp op props with
      | none => rw [happ] at h; exact absurd h (by simp)
      | some props'' =>
        rw [happ] at h
        exact ih (fun o ho => hq o (List.mem_cons_of_mem _ ho))
          (applyOp_ok (hq op (List.mem_cons_self _ _)) hp happ) h

theorem popWhilePrec_ok (t : Char) : ∀ {ops : List Char} {props : List Node}
    {ops' : List Char} {props' : List Node},
    (∀ o ∈ ops, stackOK o) → (∀ x ∈ props, nodeOK x) →
    Phase1.popWhilePrec t ops props = some (ops', props') →
    (∀ o ∈ ops', stackOK o) ∧ (∀ x ∈ props', nodeOK x) := by
  intro ops
  induction ops with
  | nil =>
    intro _ _ _ hq hp h
    rw [Phase1.popWhilePrec] at h
    injection h with h
    injection h with h1 h2
    subst h1; subst h2
    exact ⟨hq, hp⟩
  | cons op ops ih =>
    intro props ops' props' hq hp h
    rw [Phase1.popWhilePrec] at h
    split_ifs at h with hpar hprec
    · injection h with h
      injection h with h1 h2
      subst h1; subst h2
      exact ⟨hq, hp⟩
    · cases happ : Phase1.applyOp op props with
      | none => rw [happ] at h; exact absurd h (by simp)
      | some props'' =>
        rw [happ] at h
        exact ih (fun o ho => hq o (List.mem_cons_of_mem _ ho))
          (applyOp_ok (hq op (List.mem_cons_self _ _)) hp happ) h
    · injection h with h
      injection h with h1 h2
      subst h1; subst h2
      exact ⟨hq, hp⟩

theorem parseStep_ok {st st' : List Char × List Node} {t : Char}
    (hq : ∀ o ∈ st.1, stackOK o) (hp : ∀ x ∈ st.2, nodeOK x)
    (h : Phase1.parseStep st t = some st') :
    (∀ o ∈ st'.1, stackOK o) ∧ (∀ x ∈ st'.2, nodeOK x) := by
  obtain ⟨ops, props⟩ := st
  rw [Phase1.parseStep] at h
  split_ifs at h with hlp hrp hop halpha
  · injection h with h
    subst h
    refine ⟨?_, hp⟩
    intro o ho
    rcases List.mem_cons.mp ho with rfl | ho'
    · exact Or.inl rfl
    · exact hq o ho'
  · exact popUntilParen_ok hq hp h
  · cases hpop : Phase1.popWhilePrec t ops props with
    | none => rw [hpop] at h; exact absurd h (by simp)
    | some st'' =>
      obtain ⟨ops'', props''⟩ := st''
      rw [hpop] at h
      injection h with h
      subst h
      obtain ⟨hq', hp'⟩ := popWhilePrec_ok t hq hp hpop
      refine ⟨?_, hp'⟩
      intro o ho
      rcases List.mem_cons.mp ho with rfl | ho'
      · exact Or.inr hop
      · exact hq' o ho'
  · injection h with h
    subst h
    refine ⟨hq, ?_⟩
    intro x hx
    rcases List.mem_cons.mp hx with rfl | hx'
    · refine ⟨by simp, ?_⟩
      simp only [Node.valueOf]
      intro hbot
      subst hbot
      exact absurd halpha (by decide)
    · exact hp x hx'
  · injection h with h
    subst h
    exact ⟨hq, hp⟩

theorem parseFold_ok : ∀ (toks : List Char) (st st' : List Char × List Node),
    (∀ o ∈ st.1, stackOK o) → (∀ x ∈ st.2, nodeOK x) →
    toks.foldlM Phase1.parseStep st = some st' →
    (∀ o ∈ st'.1, stackOK o) ∧ (∀ x ∈ st'.2, nodeOK x) := by
  intro toks
  induction toks with
  | nil =>
    intro st st' hq hp h
    simp only [List.foldlM_nil] at h
    injection h with h
    subst h
    exact ⟨hq, hp⟩
  | cons t ts ih =>
    intro st st' hq hp h
    simp only [List.foldlM_cons] at h
    cases hstep : Phase1.parseStep st t with
    | none => rw [hstep] at h; exact absurd h (by simp)
    | some st'' =>
      rw [hstep] at h
      obtain ⟨hq', hp'⟩ := parseStep_ok hq hp hstep
      exact ih st'' st' hq' hp' h

theorem popAll_ok : ∀ {ops : List Char} {props props' : List Node},
    (∀ o ∈ ops, stackOK o) → (∀ x ∈ props, nodeOK x) →
    Phase1.popAll ops props = some props' →
    ∀ x ∈ props', nodeOK x := by
  intro ops
  induction ops with
  | nil =>
    intro props props' _ hp h
    rw [Phase1.popAll] at h
    injection h with h
    subst h
    exact hp
  | cons op ops ih =>
    intro props props' hq hp h
    rw [Phase1.popAll] at h
    cases happ : Phase1.applyOp op props with
    | none => rw [happ] at h; exact absurd h (by simp)
    | some props'' =>
      rw [happ] at h
      exact ih (fun o ho => hq o (List.mem_cons_of_mem _ ho))
        (applyOp_ok (hq op (List.mem_cons_self _ _)) hp happ) h

/-- Every tree `parse_tree` returns is a real node whose root value is not
`⊥`. -/
theorem parse_tree_ok {expr : List Char} {t : Node}
    (h : Phase1.parse_tree expr = some t) : t ≠ Node.nil ∧ t.valueOf ≠ '⊥' := by
  rw [Phase1.parse_tree] at h
  cases hfold : (Phase1.tokenize expr).foldlM Phase1.parseStep ([], []) with
  | none => rw [hfold] at h; exact absurd h (by simp)
  | some st =>
    obtain ⟨ops, props⟩ := st
    rw [hfold] at h
    dsimp only at h
    have hinv := parseFold_ok (Phase1.tokenize expr) ([], []) (ops, props)
      (by simp) (by simp) hfold
    cases hpop : Phase1.popAll ops props with
    | none => rw [hpop] at h; simp at h
    | some props' =>
      rw [hpop] at h
      have hall := popAll_ok hinv.1 hinv.2 hpop
      cases props' with
      | nil => simp at h
      | cons p ps =>
        dsimp only at h
        injection h with h
        exact h ▸ hall p (List.mem_cons_self _ _)

/-! ## Parsed-proof shape facts -/

theorem mapM_mem_exists {α β : Type} {f : α → Option β} :
    ∀ {l : List α} {l' : List β}, l.mapM f = some l' →
    ∀ b ∈ l', ∃ a, f a = some b := by
  intro l
  induction l with
  | nil =>
    intro l' h b hb
    simp only [List.mapM_nil] at h
    injection h with h
    subst h
    exact absurd hb (by simp)
  | cons a as ih =>
    intro l' h b hb
    simp only [List.mapM_cons] at h
    cases hfa : f a with
    | none => rw [hfa] at h; exact absurd h (by simp)
    | some b0 =>
      rw [hfa] at h
      cases hrest : as.mapM f with
      | none => rw [hrest] at h; exact absurd h (by simp)
      | some bs =>
        rw [hrest] at h
        injection h with h
        subst h
        rcases List.mem_cons.mp hb with rfl | hb'
        · exact ⟨a, hfa⟩
        · exact ih hrest b hb'

/-- Every line of a parsed proof either is a scope marker (no line number, no
formula, marker name) or carries a line number and a parser-produced
formula. -/
theorem parseProofLine_shape {raw : List Char} {L : LogicLine}
    (h : parseProofLine raw = some (some L)) :
    (L.line_number = none ∧ L.formula = none ∧
      (L.rule_name = "BeginScope" ∨ L.rule_name = "EndScope")) ∨
    (∃ n f, L.line_number = some n ∧ L.formula = some f ∧
      f ≠ Node.nil ∧ f.valueOf ≠ '⊥') := by
  rw [parseProofLine] at h
  split_ifs at h with hblank
  · exact absurd h (by simp)
  · rcases hci : countIndent raw with ⟨indent, rest⟩
    rw [hci] at h
    dsimp only at h
    split_ifs at h with hbegin hend
    · injection h with h
      injection h with h
      subst h
      exact Or.inl ⟨rfl, rfl, Or.inl rfl⟩
    · injection h with h
      injection h with h
      subst h
      exact Or.inl ⟨rfl, rfl, Or.inr rfl⟩
    · rcases hparts : ((splitOnFourSpaces (pyStrip rest)).map pyStrip).filter
          (fun p => p ≠ []) with _ | ⟨p0, ps⟩
      · rw [hparts] at h
        exact absurd h (by simp)
      · rcases ps with _ | ⟨p1, ps'⟩
        · rw [hparts] at h
          exact absurd h (by simp)
        · rcases ps' with _ | ⟨p2, ps''⟩
          · rw [hparts] at h
            exact absurd h (by simp)
          · rw [hparts] at h
            dsimp only at h
            cases hn : pyInt p0 with
            | none => rw [hn] at h; simp at h
            | some n =>
              rw [hn] at h
              cases hnode : Phase1.parse_tree p1 with
              | none => rw [hnode] at h; simp at h
              | some node =>
                rw [hnode] at h
                have hok := parse_tree_ok hnode
                split_ifs at h with hcomma
                · rcases hsplit : (splitOnChar ',' p2).map pyStrip with _ | ⟨rn, rawRefs⟩
                  · rw [hsplit] at h; simp at h
                  · rw [hsplit] at h
                    dsimp only at h
                    cases hrefs : rawRefs.mapM parseRef with
                    | none => rw [hrefs] at h; simp at h
                    | some refs =>
                      rw [hrefs] at h
                      injection h with h
                      injection h with h
                      subst h
                      exact Or.inr ⟨n, node, rfl, rfl, hok.1, hok.2⟩
                · injection h with h
                  injection h with h
                  subst h
                  exact Or.inr ⟨n, node, rfl, rfl, hok.1, hok.2⟩

/-- Shape facts transported to every member of a parsed proof. -/
theorem parseProof_shape {input : List Char} {lines : List LogicLine}
    (h : parseProof input = some lines) {L : LogicLine} (hL : L ∈ lines) :
    (L.line_number = none ∧ L.formula = none ∧
      (L.rule_name = "BeginScope" ∨ L.rule_name = "EndScope")) ∨
    (∃ n f, L.line_number = some n ∧ L.formula = some f ∧
      f ≠ Node.nil ∧ f.valueOf ≠ '⊥') := by
  rw [parseProof] at h
  simp only [Option.bind_eq_bind, Option.bind_eq_some] at h
  obtain ⟨parsed, hparsed, hlines⟩ := h
  simp only [Option.pure_def] at hlines
  injection hlines with hlines
  subst hlines
  have : some L ∈ parsed := by
    rcases List.mem_filterMap.mp hL with ⟨o, ho, heq⟩
    cases o with
    | none => exact absurd heq (by simp)
    | some L' =>
      simp only [Option.some.injEq, id] at heq
      subst heq
      exact ho
  obtain ⟨raw, hraw⟩ := mapM_mem_exists hparsed (some L) this
  exact parseProofLine_shape hraw

/-- A successful `lineMap` lookup returns a member of the line list. -/
theorem getLast?_mem {α : Type} {l : List α} {a : α}
    (h : l.getLast? = some a) : a ∈ l := by
  cases l with
  | nil => simp at h
  | cons x xs =>
    rw [List.getLast?_eq_getLast_of_ne_nil (by simp)] at h
    injection h with h
    exact h ▸ List.getLast_mem _

theorem lineMap_mem {lines : List LogicLine} {n : Nat} {l : LogicLine}
    (h : lineMap lines n = some l) : l ∈ lines := by
  rw [lineMap] at h
  exact List.mem_of_mem_filter (getLast?_mem h)

/-! ## Claim C7 — discharge-block checking -/

/-- The formula fetched from a parsed proof's line map is never rooted at
`⊥`. -/
theorem getF_not_bottom {input : List Char} {lines : List LogicLine}
    (hp : parseProof input = some lines) {n : Nat} {f : Node}
    (h : getF (lineMap lines) n = some f) :
    f = Node.nil ∨ f.valueOf ≠ '⊥' := by
  rw [getF] at h
  cases hlm : lineMap lines n with
  | none => rw [hlm] at h; simp at h
  | some l =>
    rw [hlm] at h
    simp only [Option.map_some'] at h
    injection h with h
    rcases parseProof_shape hp (lineMap_mem hlm) with ⟨-, hfo, -⟩ | ⟨n', f', -, hfo, hne, hbot⟩
    · rw [hfo] at h
      exact Or.inl h.symm
    · rw [hfo] at h
      simp only [Option.getD_some] at h
      subst h
      exact Or.inr hbot

/-- `NegIntro.apply` fails whenever its second argument is not a `⊥` node. -/
theorem negIntro_none {a contra : Node}
    (h : contra = Node.nil ∨ contra.valueOf ≠ '⊥') :
    Rules.negIntro a contra = none := by
  rcases h with rfl | h
  · rfl
  · cases contra with
    | nil => rfl
    | node cv cl cr =>
      simp only [Node.valueOf] at h
      simp [Rules.negIntro, h]

/-- `PBC.apply` fails whenever its second argument is not a `⊥` node. -/
theorem pbc_none {a contra : Node}
    (h : contra = Node.nil ∨ contra.valueOf ≠ '⊥') :
    Rules.pbc a contra = none := by
  cases a with
  | nil => rfl
  | node v l r =>
    by_cases hv : v = '¬'
    · rcases h with rfl | h
      · simp [Rules.pbc, hv]
      · cases contra with
        | nil => simp [Rules.pbc, hv]
        | node cv cl cr =>
          simp only [Node.valueOf] at h
          simp [Rules.pbc, hv, h]
    · simp [Rules.pbc, hv]

/-- An accepted numbered line whose rule is none of the special names reduces
to its `checkRule` verdict. -/
theorem lineStep_ok_checkRule {lm : Nat → Option LogicLine} {L : LogicLine}
    {st st' : VState} {n : Nat} (hn : L.line_number = some n)
    (hprem : ¬ L.rule_name = "Premise") (hassump : ¬ L.rule_name = "Assumption")
    (hknown : ruleKnown L.rule_name = true)
    (hstep : lineStep lm L st = Except.ok st') :
    checkRule lm st.valid L n = true := by
  cases hb : checkRule lm st.valid L n with
  | true => rfl
  | false =>
    simp only [lineStep, hn] at hstep
    rw [if_neg hprem, if_neg hassump, if_pos hknown, hb] at hstep
    simp at hstep

/-- **C7** (corrected): on a parsed proof, a line justified by `→i`, `¬i` or
`PBC` is accepted only when the rule is `→i`, its single reference is a block
`(s, e)`, line `s` exists with rule `Assumption`, and every line in the
inclusive range `s..e` is already valid at the point of use — a range that is
*empty* when `s > e`, so the end line itself is then unchecked (the
counterexample).  `¬i` and `PBC` lines are never accepted at all: their
required `⊥` conclusion cannot be produced by the formula parser. -/
theorem C7_discharge_block_checks (input : List Char) (lines : List LogicLine)
    (hp : parseProof input = some lines) (L : LogicLine) (hL : L ∈ lines)
    (st st' : VState)
    (hrule : L.rule_name = "→i" ∨ L.rule_name = "¬i" ∨ L.rule_name = "PBC")
    (hstep : lineStep (lineMap lines) L st = Except.ok st') :
    L.rule_name = "→i" ∧ ∃ s e, L.refs = [Ref.block s e] ∧
      (∃ ls, lineMap lines s = some ls ∧ ls.rule_name = "Assumption") ∧
      (∀ i ∈ rangeList s e, i ∈ st.valid) := by
  have hnum : ∃ n, L.line_number = some n := by
    rcases parseProof_shape hp hL with ⟨-, -, hmk | hmk⟩ | ⟨n, f, hn, -, -, -⟩
    · rcases hrule with h | h | h <;> rw [h] at hmk <;> exact absurd hmk (by decide)
    · rcases hrule with h | h | h <;> rw [h] at hmk <;> exact absurd hmk (by decide)
    · exact ⟨n, hn⟩
  obtain ⟨n, hn⟩ := hnum
  rcases hrule with hr | hr | hr
  · -- →i : read off the checks the branch performs
    refine ⟨hr, ?_⟩
    have hcheck : checkRule (lineMap lines) st.valid L n = true :=
      lineStep_ok_checkRule hn (by rw [hr]; decide) (by rw [hr]; decide)
        (by rw [hr]; decide) hstep
    simp only [checkRule] at hcheck
    rw [hr, if_neg (by decide : ¬("→i" : String) = "LEM"),
      if_pos (rfl : ("→i" : String) = "→i")] at hcheck
    rcases href : L.refs with _ | ⟨r0, rs⟩
    · rw [href] at hcheck; simp at hcheck
    · rcases r0 with r0n | ⟨s, e⟩
      · rw [href] at hcheck; simp at hcheck
      · rcases rs with _ | ⟨r1, rs'⟩
        · rw [href] at hcheck
          dsimp only at hcheck
          split_ifs at hcheck with h1 h2 h3
          refine ⟨s, e, rfl, ?_, ?_⟩
          · push_neg at h2
            simp only [getR] at h2
            cases hlm : lineMap lines s with
            | none => rw [hlm] at h2; simp at h2
            | some ls =>
              rw [hlm] at h2
              simp only [Option.map_some'] at h2
              injection h2 with h2
              exact ⟨ls, rfl, h2⟩
          · intro i hi
            exact of_decide_eq_true (List.all_eq_true.mp h3 i hi)
        · rw [href] at hcheck; simp at hcheck
  · -- ¬i : never accepted — the conclusion formula cannot be ⊥
    exfalso
    have hcheck : checkRule (lineMap lines) st.valid L n = true :=
      lineStep_ok_checkRule hn (by rw [hr]; decide) (by rw [hr]; decide)
        (by rw [hr]; decide) hstep
    simp only [checkRule] at hcheck
    rw [hr, if_neg (by decide : ¬("¬i" : String) = "LEM"),
      if_neg (by decide : ¬("¬i" : String) = "→i"),
      if_pos (rfl : ("¬i" : String) = "¬i")] at hcheck
    rcases href : L.refs with _ | ⟨r0, rs⟩
    · rw [href] at hcheck; simp at hcheck
    · rcases r0 with r0n | ⟨s, e⟩
      · rw [href] at hcheck; simp at hcheck
      · rcases rs with _ | ⟨r1, rs'⟩
        · rw [href] at hcheck
          dsimp only at hcheck
          split_ifs at hcheck with h1 h2
          cases hgs : getF (lineMap lines) s with
          | none => rw [hgs] at hcheck; simp at hcheck
          | some a =>
            cases hge : getF (lineMap lines) e with
            | none => rw [hgs, hge] at hcheck; simp at hcheck
            | some contra =>
              rw [hgs, hge] at hcheck
              have hni : Rules.negIntro a contra = none :=
                negIntro_none (getF_not_bottom hp hge)
              simp [hni] at hcheck
        · rw [href] at hcheck; simp at hcheck
  · -- PBC : never accepted — the contradiction formula cannot be ⊥
    exfalso
    have hcheck : checkRule (lineMap lines) st.valid L n = true :=
      lineStep_ok_checkRule hn (by rw [hr]; decide) (by rw [hr]; decide)
        (by rw [hr]; decide) hstep
    simp only [checkRule] at hcheck
    rw [hr, if_neg (by decide : ¬("PBC" : String) = "LEM"),
      if_neg (by decide : ¬("PBC" : String) = "→i"),
      if_neg (by decide : ¬("PBC" : String) = "¬i"),
      if_pos (rfl : ("PBC" : String) = "PBC")] at hcheck
    rcases href : L.refs with _ | ⟨r0, rs⟩
    · rw [href] at hcheck; simp at hcheck
    · rcases r0 with r0n | ⟨s, e⟩
      · rw [href] at hcheck; simp at hcheck
      · rcases rs with _ | ⟨r1, rs'⟩
        · rw [href] at hcheck
          dsimp only at hcheck
          split_ifs at hcheck with h1 h2
          cases hgs : getF (lineMap lines) s with
          | none => rw [hgs] at hcheck; simp at hcheck
          | some a =>
            cases hge : getF (lineMap lines) e with
            | none => rw [hgs, hge] at hcheck; simp at hcheck
            | some contra =>
              rw [hgs, hge] at hcheck
              have hni : Rules.pbc a contra = none :=
                pbc_none (getF_not_bottom hp hge)
              simp [hni] at hcheck
        · rw [href] at hcheck; simp at hcheck

/-- The C7 failing proof text: the `→i` at line 3 cites the block `2-1`,
whose end line `1` occurs later in the text (as an `Assumption`, which the
verifier accepts unconditionally) and is not yet valid when line 3 is
checked — yet the whole proof verifies. -/
def c7cText : String :=
  "BeginScope\n2    p    Assumption\nEndScope\n3    p → q    →i, 2-1\n1    q    Assumption"

/-- The parsed lines of `c7cText`. -/
def c7cLines : List LogicLine := (parseProof c7cText.data).getD []

/-- The `→i` line of `c7cText`. -/
def c7cLine : LogicLine :=
  ⟨some 3, some (Node.node '→' atomP atomQ), "→i", [Ref.block 2 1], 0⟩

/-- The verifier state at the moment line 3 of `c7cText` is processed. -/
def c7cState : VState := ⟨[2], [[]]⟩

/-- **C7** counterexample: the claim "the block's end line is already valid at
the point of use" fails — in `c7cText` the `→i` line is accepted (and the
whole proof returns `"Valid Deduction"`) although its block end, line 1, is
not in `valid_lines` when the `→i` line is checked: the reversed range `2-1`
makes the validity loop vacuous. -/
theorem C7_end_line_not_checked :
    phase5_processS c7cText = "Valid Deduction" ∧
    parseProof c7cText.data = some c7cLines ∧
    c7cLines.get? 3 = some c7cLine ∧
    c7cLine.rule_name = "→i" ∧ c7cLine.refs = [Ref.block 2 1] ∧
    initState c7cLines = ⟨[], [[]]⟩ ∧
    lineStep (lineMap c7cLines) ⟨none, none, "BeginScope", [], 0⟩ ⟨[], [[]]⟩ =
      Except.ok ⟨[], [[], []]⟩ ∧
    lineStep (lineMap c7cLines) ⟨some 2, some atomP, "Assumption", [], 0⟩ ⟨[], [[], []]⟩ =
      Except.ok ⟨[2], [[2], []]⟩ ∧
    lineStep (lineMap c7cLines) ⟨none, none, "EndScope", [], 0⟩ ⟨[2], [[2], []]⟩ =
      Except.ok c7cState ∧
    lineStep (lineMap c7cLines) c7cLine c7cState = Except.ok ⟨[3, 2], [[3]]⟩ ∧
    ¬ (1 ∈ c7cState.valid) := by
  refine ⟨rfl, rfl, rfl, rfl, rfl, rfl, rfl, rfl, rfl, rfl, by decide⟩

/-- The C7 witness text: a well-behaved `→i` discharge. -/
def c7wText : String :=
  "BeginScope\n1    p    Assumption\nEndScope\n2    p → p    →i, 1-1"

/-- The parsed lines of `c7wText`. -/
def c7wLines : List LogicLine := (parseProof c7wText.data).getD []

/-- The `→i` line of `c7wText`. -/
def c7wLine : LogicLine :=
  ⟨some 2, some (Node.node '→' atomP atomP), "→i", [Ref.block 1 1], 0⟩

/-- Closed instance of `C7_discharge_block_checks` at the concrete accepted
`→i` line of `c7wText`. -/
theorem C7_discharge_block_checks_witness :
    c7wLine.rule_name = "→i" ∧ ∃ s e, c7wLine.refs = [Ref.block s e] ∧
      (∃ ls, lineMap c7wLines s = some ls ∧ ls.rule_name = "Assumption") ∧
      (∀ i ∈ rangeList s e, i ∈ (VState.mk [1] [[]]).valid) :=
  C7_discharge_block_checks c7wText.data c7wLines rfl c7wLine (by decide)
    ⟨[1], [[]]⟩ ⟨[2, 1], [[2]]⟩ (Or.inl rfl) rfl

/-! ## Claim C9 — indentation noninterference -/

/-- Forget a parsed line's indentation. -/
def eraseIndent (L : LogicLine) : LogicLine :=
  { L with indent := 0 }

/-- Two option-lines equal up to indentation have equal rule names and equal
(`None`-defaulted) formulas. -/
theorem option_field_congr {o o' : Option LogicLine}
    (h : Option.map eraseIndent o = Option.map eraseIndent o') :
    ((o.map fun l => l.rule_name) = o'.map fun l => l.rule_name) ∧
    ((o.map fun l => l.formula.getD Node.nil) = o'.map fun l => l.formula.getD Node.nil) := by
  cases o with
  | none => cases o' with
    | none => exact ⟨rfl, rfl⟩
    | some b => simp at h
  | some a =>
    cases o' with
    | none => simp at h
    | some b =>
      simp only [Option.map_some', Option.some.injEq] at h
      have hfields : a.line_number = b.line_number ∧ a.formula = b.formula ∧
          a.rule_name = b.rule_name ∧ a.refs = b.refs := by
        cases a; cases b
        simp only [eraseIndent, LogicLine.mk.injEq] at h
        simp_all
      simp [hfields.2.1, hfields.2.2.1]

/-- `getLast?` commutes with `map`. -/
theorem getLast?_map {α β : Type} (f : α → β) :
    ∀ (l : List α), (l.map f).getLast? = (l.getLast?).map f
  | [] => rfl
  | [a] => rfl
  | a :: b :: t => by
    rw [List.map_cons, List.map_cons, List.getLast?_cons_cons, ← List.map_cons,
      getLast?_map f (b :: t), List.getLast?_cons_cons]

/-- Filtering by an indentation-blind predicate respects equality up to
indentation. -/
theorem filter_map_erase (p : LogicLine → Bool)
    (hp : ∀ a b : LogicLine, eraseIndent a = eraseIndent b → p a = p b) :
    ∀ (ls ls' : List LogicLine), ls.map eraseIndent = ls'.map eraseIndent →
    (ls.filter p).map eraseIndent = (ls'.filter p).map eraseIndent := by
  intro ls
  induction ls with
  | nil =>
    intro ls' h
    cases ls' with
    | nil => rfl
    | cons b t' => simp at h
  | cons a t ih =>
    intro ls' h
    cases ls' with
    | nil => simp at h
    | cons b t' =>
      simp only [List.map_cons, List.cons.injEq] at h
      obtain ⟨hab, ht⟩ := h
      rw [List.filter_cons, List.filter_cons, hp a b hab]
      cases hpb : p b with
      | false => simpa using ih t' ht
      | true => simp [ih t' ht, hab]

/-- Line maps of proofs equal up to indentation are pointwise equal up to
indentation. -/
theorem lineMap_erase_congr {lines lines' : List LogicLine}
    (h : lines.map eraseIndent = lines'.map eraseIndent) (k : Nat) :
    Option.map eraseIndent (lineMap lines k) =
      Option.map eraseIndent (lineMap lines' k) := by
  have hfil := filter_map_erase (fun l => decide (l.line_number = some k))
    (fun a b hab => by
      have : a.line_number = b.line_number := by
        cases a; cases b
        simp only [eraseIndent, LogicLine.mk.injEq] at hab
        simp_all
      simp [this]) lines lines' h
  rw [lineMap, lineMap, ← getLast?_map, ← getLast?_map, hfil]

/-- The rule branches of the verifier never read indentation: `checkRule` is
indentation-blind (the `∨e` branch, whose source text would compare the two
referenced assumptions' indents, always raises before reaching that
comparison). -/
theorem checkRule_indent_congr (lm lm' : Nat → Option LogicLine)
    (hmap : ∀ k, Option.map eraseIndent (lm k) = Option.map eraseIndent (lm' k))
    (valid : List Nat) (L L' : LogicLine) (hLL : eraseIndent L = eraseIndent L')
    (n : Nat) :
    checkRule lm valid L n = checkRule lm' valid L' n := by
  have hfields : L.line_number = L'.line_number ∧ L.formula = L'.formula ∧
      L.rule_name = L'.rule_name ∧ L.refs = L'.refs := by
    cases L; cases L'
    simp only [eraseIndent, LogicLine.mk.injEq] at hLL
    simp_all
  obtain ⟨h1, h2, h3, h4⟩ := hfields
  have hR : getR lm = getR lm' := by
    funext k
    exact (option_field_congr (hmap k)).1
  have hF : getF lm = getF lm' := by
    funext k
    exact (option_field_congr (hmap k)).2
  simp only [checkRule]
  rw [← h2, ← h3, ← h4, hR, hF]

/-- One verifier iteration is indentation-blind. -/
theorem lineStep_indent_congr (lm lm' : Nat → Option LogicLine)
    (hmap : ∀ k, Option.map eraseIndent (lm k) = Option.map eraseIndent (lm' k))
    (L L' : LogicLine) (st : VState) (hLL : eraseIndent L = eraseIndent L') :
    lineStep lm L st = lineStep lm' L' st := by
  have hfields : L.line_number = L'.line_number ∧ L.formula = L'.formula ∧
      L.rule_name = L'.rule_name ∧ L.refs = L'.refs := by
    cases L; cases L'
    simp only [eraseIndent, LogicLine.mk.injEq] at hLL
    simp_all
  obtain ⟨h1, h2, h3, h4⟩ := hfields
  have hckr : ∀ n, checkRule lm st.valid L n = checkRule lm' st.valid L' n :=
    fun n => checkRule_indent_congr lm lm' hmap st.valid L L' hLL n
  simp only [lineStep]
  rw [← h1, ← h3]
  cases hl : L.line_number with
  | none => rfl
  | some n => simp [hckr n]

/-- The whole verifier pass is indentation-blind. -/
theorem processLines_indent_congr (lm lm' : Nat → Option LogicLine)
    (hmap : ∀ k, Option.map eraseIndent (lm k) = Option.map eraseIndent (lm' k)) :
    ∀ (ls ls' : List LogicLine), ls.map eraseIndent = ls'.map eraseIndent →
    ∀ st : VState,
    processLines lm ls st = processLines lm' ls' st := by
  intro ls
  induction ls with
  | nil =>
    intro ls' h st
    cases ls' with
    | nil => rfl
    | cons b t' => simp at h
  | cons L t ih =>
    intro ls' h st
    cases ls' with
    | nil => simp at h
    | cons L' t' =>
      simp only [List.map_cons, List.cons.injEq] at h
      obtain ⟨hLL, ht⟩ := h
      have hstep := lineStep_indent_congr lm lm' hmap L L' st hLL
      simp only [processLines]
      rw [hstep]
      cases hls : lineStep lm' L' st with
      | ok st2 => exact ih t' ht st2
      | error msg => rfl

/-- Two parsed proofs whose lines agree up to indentation verify to the same
result — the verifier never reads the `indent` field. -/
theorem verifyLines_indent_congr (lines lines' : List LogicLine)
    (h : lines.map eraseIndent = lines'.map eraseIndent) :
    verifyLines lines = verifyLines lines' := by
  have hmap := lineMap_erase_congr h
  have hfun : ((fun l : LogicLine => l.line_number) ∘ eraseIndent) =
      fun l : LogicLine => l.line_number := funext fun l => rfl
  have hnum : lines.filterMap (fun l => l.line_number) =
      lines'.filterMap (fun l => l.line_number) := by
    calc lines.filterMap (fun l => l.line_number)
        = (lines.map eraseIndent).filterMap (fun l => l.line_number) := by
          rw [List.filterMap_map, hfun]
      _ = (lines'.map eraseIndent).filterMap (fun l => l.line_number) := by rw [h]
      _ = lines'.filterMap (fun l => l.line_number) := by
          rw [List.filterMap_map, hfun]
  have hpn : premiseNums lines = premiseNums lines' := by
    rw [premiseNums, premiseNums, hnum]
    apply List.filter_congr
    intro k _
    have := (option_field_congr (hmap k)).1
    rw [getR, getR] at *
    simp [this]
  rw [verifyLines, verifyLines, initState, initState, hpn]
  exact processLines_indent_congr _ _ hmap lines lines' h _

/-- `pyStrip` absorbs a leading space. -/
theorem pyStrip_space (l : List Char) : pyStrip (' ' :: l) = pyStrip l := by
  simp [pyStrip, List.dropWhile]
  rfl

/-- `pyStrip` is blind to the leading paired-space indentation that
`countIndent` consumes. -/
theorem pyStrip_countIndent (raw : List Char) :
    pyStrip raw = pyStrip (countIndent raw).2 := by
  induction raw using countIndent.induct with
  | case1 rest n r heq ih =>
    rw [countIndent, heq, pyStrip_space, pyStrip_space, ih, heq]
  | case2 l h =>
    rw [countIndent.eq_def]
    split
    · exact absurd rfl (h _)
    · rfl

/-- Parsing a physical line depends on its leading paired-space indentation
only through the `indent` field: two raw lines with the same text after their
indentation parse to the same result up to `eraseIndent` (and in particular
fail together). -/
theorem parseProofLine_indent_congr {raw raw' : List Char}
    (h : (countIndent raw).2 = (countIndent raw').2) :
    Option.map (Option.map eraseIndent) (parseProofLine raw) =
      Option.map (Option.map eraseIndent) (parseProofLine raw') := by
  have hs : pyStrip raw = pyStrip raw' := by
    rw [pyStrip_countIndent raw, pyStrip_countIndent raw', h]
  rw [parseProofLine, parseProofLine, hs]
  rcases hA : countIndent raw with ⟨i, rest⟩
  rcases hB : countIndent raw' with ⟨i', rest'⟩
  have hr : rest = rest' := by
    have h2 := h
    rw [hA, hB] at h2
    exact h2
  subst hr
  by_cases hblank : pyStrip raw' = []
  · rw [if_pos hblank, if_pos hblank]
  · rw [if_neg hblank, if_neg hblank]
    dsimp only
    split_ifs with hbegin hend
    · rfl
    · rfl
    · rcases hparts : ((splitOnFourSpaces (pyStrip rest)).map pyStrip).filter
          (fun p => p ≠ []) with _ | ⟨p0, ps⟩
      · rw [hparts]
      · rcases ps with _ | ⟨p1, ps'⟩
        · rw [hparts]
        · rcases ps' with _ | ⟨p2, ps''⟩
          · rw [hparts]
          · rw [hparts]
            dsimp only
            cases hn : pyInt p0 with
            | none => rfl
            | some n =>
              cases hnode : Phase1.parse_tree p1 with
              | none => rfl
              | some node =>
                split_ifs with hcomma
                · rcases hsplit : (splitOnChar ',' p2).map pyStrip with _ | ⟨rn, rawRefs⟩
                  · rfl
                  · dsimp only
                    cases hrefs : rawRefs.mapM parseRef with
                    | none => rfl
                    | some refs => rfl
                · rfl

/-- `mapM parseProofLine` over two raw-line lists that agree after their
leading paired-space indentation: the results agree up to the `indent` fields
(and fail together). -/
theorem mapM_parse_erase {ls ls' : List (List Char)}
    (h : List.Forall₂ (fun a b => (countIndent a).2 = (countIndent b).2) ls ls') :
    Option.map (List.map (Option.map eraseIndent)) (ls.mapM parseProofLine) =
      Option.map (List.map (Option.map eraseIndent)) (ls'.mapM parseProofLine) := by
  induction h with
  | nil => rfl
  | cons hab htail ih =>
    rename_i a b as bs
    rw [List.mapM_cons, List.mapM_cons]
    have hhead := parseProofLine_indent_congr hab
    cases hA : parseProofLine a with
    | none =>
      cases hB : parseProofLine b with
      | none => rfl
      | some y => rw [hA, hB] at hhead; simp at hhead
    | some x =>
      cases hB : parseProofLine b with
      | none => rw [hA, hB] at hhead; simp at hhead
      | some y =>
        rw [hA, hB] at hhead
        simp only [Option.map_some', Option.some.injEq] at hhead
        cases hT : as.mapM parseProofLine with
        | none =>
          cases hU : bs.mapM parseProofLine with
          | none => simp
          | some ys => rw [hT, hU] at ih; simp at ih
        | some xs =>
          cases hU : bs.mapM parseProofLine with
          | none => rw [hT, hU] at ih; simp at ih
          | some ys =>
            rw [hT, hU] at ih
            simp only [Option.map_some', Option.some.injEq] at ih
            simp only [Option.bind_eq_bind, Option.some_bind, Option.pure_def,
              Option.map_some', Option.some.injEq, List.map_cons]
            rw [hhead, ih]

/-- `filterMap id` respects equality up to `eraseIndent` of the option
lines. -/
theorem filterMap_id_erase :
    ∀ (p p' : List (Option LogicLine)),
    p.map (Option.map eraseIndent) = p'.map (Option.map eraseIndent) →
    (p.filterMap id).map eraseIndent = (p'.filterMap id).map eraseIndent := by
  intro p
  induction p with
  | nil =>
    intro p' h
    cases p' with
    | nil => rfl
    | cons b t => simp at h
  | cons a t ih =>
    intro p' h
    cases p' with
    | nil => simp at h
    | cons b t' =>
      simp only [List.map_cons, List.cons.injEq] at h
      obtain ⟨hab, ht⟩ := h
      cases a with
      | none =>
        cases b with
        | none =>
          simp only [List.filterMap_cons, id]
          exact ih t' ht
        | some y => simp at hab
      | some x =>
        cases b with
        | none => simp at hab
        | some y =>
          simp only [Option.map_some', Option.some.injEq] at hab
          simp only [List.filterMap_cons, id, List.map_cons]
          rw [hab, ih t' ht]

/-- **C9** (confirmed): indentation is cosmetic.  For any two proof texts
whose physical lines (after the whole-text `strip()`) agree once their
leading paired-space indentation is removed, `Phase5.process` returns the
same output string.  The parser records indentation only in the `indent`
field, and the verifier never reads that field: its only syntactic reader —
the `∨e` branch's comparison of the two referenced assumptions' indents
(phase5/logic.py:548) — sits below that branch's `LogicSymbol.OR` access,
which always raises `AttributeError`, so it is dead code. -/
theorem C9_indent_cosmetic (input input' : List Char)
    (h : List.Forall₂ (fun a b => (countIndent a).2 = (countIndent b).2)
      (splitOnChar '\n' (pyStrip input)) (splitOnChar '\n' (pyStrip input'))) :
    phase5_process input = phase5_process input' := by
  rw [phase5_process, phase5_process, parseProof, parseProof]
  have hm := mapM_parse_erase h
  cases hA : (splitOnChar '\n' (pyStrip input)).mapM parseProofLine with
  | none =>
    cases hB : (splitOnChar '\n' (pyStrip input')).mapM parseProofLine with
    | none => rfl
    | some q => rw [hA, hB] at hm; simp at hm
  | some p =>
    cases hB : (splitOnChar '\n' (pyStrip input')).mapM parseProofLine with
    | none => rw [hA, hB] at hm; simp at hm
    | some q =>
      rw [hA, hB] at hm
      simp only [Option.map_some', Option.some.injEq] at hm
      simp only [Option.bind_eq_bind, Option.some_bind, Option.pure_def]
      exact verifyLines_indent_congr _ _ (filterMap_id_erase p q hm)

/-- Closed instance of `C9_indent_cosmetic`: a concrete proof text and its
variant with one line re-indented by one two-space level produce the same
verifier output. -/
theorem C9_indent_cosmetic_witness :
    List.Forall₂ (fun a b => (countIndent a).2 = (countIndent b).2)
      (splitOnChar '\n' (pyStrip ("1    p    Premise\nBeginScope\n2    q    Assumption\nEndScope\n3    q    Copy, 2").data))
      (splitOnChar '\n' (pyStrip ("1    p    Premise\nBeginScope\n  2    q    Assumption\nEndScope\n3    q    Copy, 2").data)) ∧
    phase5_process ("1    p    Premise\nBeginScope\n2    q    Assumption\nEndScope\n3    q    Copy, 2").data =
      phase5_process ("1    p    Premise\nBeginScope\n  2    q    Assumption\nEndScope\n3    q    Copy, 2").data :=
  ⟨by decide, C9_indent_cosmetic _ _ (by decide)⟩

/-! ## Claim C2 — round-trip

The round-trip claim fails in general (`p∧(q∧r)` prints as `p ∧ q ∧ r`, which
reparses left-associated); it holds on the fragment of parser-shaped trees
avoiding an `∧` with an `∧` right child, an `∨` with an `∨` right child, and a
`¬` applied directly to a `¬`.  The development below proves the amended
statement by a stack-machine simulation of `parse_tree` on printed output. -/

/-- `v` is one of the four binary connectives. -/
def binOp (v : Char) : Prop := v = '∧' ∨ v = '∨' ∨ v = '→' ∨ v = '↔'

instance (v : Char) : Decidable (binOp v) := by
  unfold binOp
  infer_instance

/-- Trees shaped like parser output: single-letter leaves, `¬` with only a
right child, binary connectives with two children. -/
def wellShaped : Node → Bool
  | Node.nil => false
  | Node.node v l r =>
    if v.isAlpha then decide (l = Node.nil) && decide (r = Node.nil)
    else if v = '¬' then decide (l = Node.nil) && wellShaped r
    else if binOp v then wellShaped l && wellShaped r
    else false

/-- The root/right-child pairs on which printing drops parentheses that the
reparse needs: an `∧` whose right child is an `∧`, an `∨` whose right child is
an `∨`, a `¬` applied directly to a `¬`. -/
def badRight (v : Char) (r : Node) : Bool :=
  match r with
  | Node.nil => false
  | Node.node rv _ _ =>
    (decide (v = '∧') && decide (rv = '∧')) ||
      (decide (v = '∨') && decide (rv = '∨')) ||
      (decide (v = '¬') && decide (rv = '¬'))

/-- The round-trip-safe fragment: no `badRight` pair anywhere in the tree. -/
def goodTree : Node → Bool
  | Node.nil => true
  | Node.node v l r => goodTree l && goodTree r && !(badRight v r)

/-- Precedence of a tree's root operator (0 for letters). -/
def rootPrec : Node → Nat
  | Node.nil => 0
  | Node.node v _ _ => if v.isAlpha then 0 else Phase1.presedence v

/-- The operator stack will not be popped by an incoming operator of
precedence at most `p`. -/
def guardOK (p : Nat) : List Char → Prop
  | [] => True
  | op :: _ => op = '(' ∨ p < Phase1.presedence op

/-- Facts about an alphabetic character. -/
theorem alpha_facts {c : Char} (h : c.isAlpha = true) :
    c ≠ '(' ∧ c ≠ ')' ∧ Phase1.is_operator c = false ∧ c ≠ ' ' := by
  refine ⟨?_, ?_, ?_, ?_⟩
  · rintro rfl; simp [Char.isAlpha, Char.isUpper, Char.isLower] at h
  · rintro rfl; simp [Char.isAlpha, Char.isUpper, Char.isLower] at h
  · cases hop : Phase1.is_operator c
    · rfl
    · exfalso
      rcases (by simpa [Phase1.is_operator] using hop :
          c = '¬' ∨ c = '∧' ∨ c = '∨' ∨ c = '→' ∨ c = '↔') with
        rfl | rfl | rfl | rfl | rfl <;>
        simp [Char.isAlpha, Char.isUpper, Char.isLower] at h
  · rintro rfl; simp [Char.isAlpha, Char.isUpper, Char.isLower] at h

/-- Facts about a binary connective character. -/
theorem binOp_facts {v : Char} (h : binOp v) :
    v.isAlpha = false ∧ v ≠ '¬' ∧ Phase1.is_operator v = true ∧
    v ≠ '(' ∧ v ≠ ')' ∧ v ≠ ' ' ∧
    2 ≤ Phase1.presedence v ∧ Phase1.presedence v ≤ 5 ∧
    Phase2.precedence v = Phase1.presedence v := by
  rcases h with rfl | rfl | rfl | rfl <;> exact ⟨rfl, by decide, rfl, by decide,
    by decide, by decide, by decide, by decide, rfl⟩

/-- `presedence` separates distinct binary connectives. -/
theorem binOp_prec_inj {v w : Char} (hv : binOp v) (hw : binOp w)
    (h : Phase1.presedence v = Phase1.presedence w) : v = w := by
  rcases hv with rfl | rfl | rfl | rfl <;> rcases hw with rfl | rfl | rfl | rfl <;>
    first
      | rfl
      | exact absurd h (by decide)

/-- `tokenize` distributes over concatenation. -/
theorem tokenize_append (a b : List Char) :
    Phase1.tokenize (a ++ b) = Phase1.tokenize a ++ Phase1.tokenize b := by
  simp [Phase1.tokenize, List.filter_append]

/-- `tokenize` keeps a non-space head. -/
theorem tokenize_cons {c : Char} (h : c ≠ ' ') (l : List Char) :
    Phase1.tokenize (c :: l) = c :: Phase1.tokenize l := by
  simp [Phase1.tokenize, List.filter_cons, h]

/-- `popAll` splits over concatenation of operator lists. -/
theorem popAll_append : ∀ (a b : List Char) (props : List Node),
    Phase1.popAll (a ++ b) props =
      (Phase1.popAll a props).bind (Phase1.popAll b) := by
  intro a
  induction a with
  | nil => intro b props; simp [Phase1.popAll]
  | cons op t ih =>
    intro b props
    rw [List.cons_append, Phase1.popAll, Phase1.popAll]
    cases Phase1.applyOp op props with
    | none => simp
    | some props2 => exact ih b props2

/-- An operator stack satisfying the guard is not popped by an incoming
operator of precedence ≤ the guard level. -/
theorem popWhilePrec_stop {c : Char} {p : Nat} (hc : Phase1.presedence c ≤ p) :
    ∀ {ops : List Char} (props : List Node), guardOK p ops →
    Phase1.popWhilePrec c ops props = some (ops, props) := by
  intro ops props hg
  cases ops with
  | nil => rfl
  | cons op t =>
    rw [Phase1.popWhilePrec]
    by_cases hpar : op = '('
    · rw [if_pos hpar]
    · rcases hg with rfl | hlt
      · exact absurd rfl hpar
      · rw [if_neg hpar, if_neg (by omega)]

/-- Pending operators of low enough precedence are all reduced by an incoming
operator, stopping at a guarded stack. -/
theorem popWhilePrec_extra {c : Char} {p : Nat} (hc : Phase1.presedence c ≤ p) :
    ∀ (extra : List Char) {ops : List Char} {props props2 : List Node},
    (∀ o ∈ extra, o ≠ '(' ∧ Phase1.presedence o ≤ Phase1.presedence c) →
    guardOK p ops →
    Phase1.popAll extra props = some props2 →
    Phase1.popWhilePrec c (extra ++ ops) props = some (ops, props2) := by
  intro extra
  induction extra with
  | nil =>
    intro ops props props2 _ hg hpop
    rw [Phase1.popAll] at hpop
    injection hpop with hpop
    subst hpop
    exact popWhilePrec_stop hc props hg
  | cons op t ih =>
    intro ops props props2 hex hg hpop
    rw [Phase1.popAll] at hpop
    cases happ : Phase1.applyOp op props with
    | none => rw [happ] at hpop; exact absurd hpop (by simp)
    | some props3 =>
      rw [happ] at hpop
      rw [List.cons_append, Phase1.popWhilePrec,
        if_neg (hex op (List.mem_cons_self _ _)).1,
        if_pos (hex op (List.mem_cons_self _ _)).2, happ]
      exact ih (fun o ho => hex o (List.mem_cons_of_mem _ ho)) hg hpop

/-- A `)` reduces every pending operator down to the matching `(` and
discards it. -/
theorem popUntilParen_extra : ∀ (extra : List Char) {ops : List Char}
    {props props2 : List Node},
    (∀ o ∈ extra, o ≠ '(') →
    Phase1.popAll extra props = some props2 →
    Phase1.popUntilParen (extra ++ '(' :: ops) props = some (ops, props2) := by
  intro extra
  induction extra with
  | nil =>
    intro ops props props2 _ hpop
    rw [Phase1.popAll] at hpop
    injection hpop with hpop
    subst hpop
    rw [List.nil_append, Phase1.popUntilParen, if_pos rfl]
  | cons op t ih =>
    intro ops props props2 hex hpop
    rw [Phase1.popAll] at hpop
    cases happ : Phase1.applyOp op props with
    | none => rw [happ] at hpop; exact absurd hpop (by simp)
    | some props3 =>
      rw [happ] at hpop
      rw [List.cons_append, Phase1.popUntilParen,
        if_neg (hex op (List.mem_cons_self _ _)), happ]
      exact ih (fun o ho => hex o (List.mem_cons_of_mem _ ho)) hpop

/-- `parseStep` on `(`. -/
theorem parseStep_lparen (ops : List Char) (props : List Node) :
    Phase1.parseStep (ops, props) '(' = some ('(' :: ops, props) := rfl

/-- `parseStep` on `)`. -/
theorem parseStep_rparen (ops : List Char) (props : List Node) :
    Phase1.parseStep (ops, props) ')' = Phase1.popUntilParen ops props := rfl

/-- `parseStep` on an operator. -/
theorem parseStep_op (c : Char) (h1 : c ≠ '(') (h2 : c ≠ ')')
    (h3 : Phase1.is_operator c = true) (ops : List Char) (props : List Node) :
    Phase1.parseStep (ops, props) c =
      Option.map (fun s => (c :: s.1, s.2)) (Phase1.popWhilePrec c ops props) := by
  rw [Phase1.parseStep]
  rw [if_neg h1, if_neg h2, if_pos h3]
  cases Phase1.popWhilePrec c ops props with
  | none => rfl
  | some s => rfl

/-- `parseStep` on a letter. -/
theorem parseStep_alpha {c : Char} (h : c.isAlpha = true)
    (ops : List Char) (props : List Node) :
    Phase1.parseStep (ops, props) c =
      some (ops, Node.node c Node.nil Node.nil :: props) := by
  obtain ⟨h1, h2, h3, -⟩ := alpha_facts h
  rw [Phase1.parseStep, if_neg h1, if_neg h2, h3, if_neg (by simp), if_pos h]

/-- A well-shaped tree prints to a nonempty string. -/
theorem print_nonempty : ∀ {t : Node}, wellShaped t = true →
    Phase2.tree_to_string t ≠ [] := by
  intro t
  induction t with
  | nil => intro h; exact absurd h (by simp [wellShaped])
  | node v l r ihl ihr =>
    intro hws
    rw [wellShaped] at hws
    split_ifs at hws with halpha hneg hbin
    · rw [Phase2.tree_to_string, if_pos halpha]
      simp
    · have hr := ihr (Bool.and_elim_right hws)
      rw [Phase2.tree_to_string, if_neg (by simp [halpha]), if_pos hneg,
        if_neg hr]
      split_ifs <;> simp
    · have hl := ihl (Bool.and_elim_left hws)
      have hr := ihr (Bool.and_elim_right hws)
      have hfacts := binOp_facts (by exact of_decide_eq_true (by simpa using hbin))
      rw [Phase2.tree_to_string, if_neg (by simp [halpha]), if_neg hfacts.2.1]
      rw [if_neg (by simp [hl]), if_neg (by simpa using hl), if_neg (by simpa using hr)]
      split_ifs <;> simp

/-- Destructuring a well-shaped node: the root is a letter leaf, a `¬` with
only a right child, or a binary connective with two well-shaped children. -/
theorem wellShaped_cases {v : Char} {l r : Node}
    (h : wellShaped (Node.node v l r) = true) :
    (v.isAlpha = true ∧ l = Node.nil ∧ r = Node.nil) ∨
    (v = '¬' ∧ l = Node.nil ∧ wellShaped r = true) ∨
    (binOp v ∧ wellShaped l = true ∧ wellShaped r = true) := by
  rw [wellShaped] at h
  split_ifs at h with h1 h2 h3
  · exact Or.inl ⟨h1, of_decide_eq_true (Bool.and_elim_left h),
      of_decide_eq_true (Bool.and_elim_right h)⟩
  · exact Or.inr (Or.inl ⟨h2, of_decide_eq_true (Bool.and_elim_left h),
      Bool.and_elim_right h⟩)
  · exact Or.inr (Or.inr ⟨h3, Bool.and_elim_left h, Bool.and_elim_right h⟩)

/-- A well-shaped tree is a real node. -/
theorem wellShaped_ne_nil {t : Node} (h : wellShaped t = true) : t ≠ Node.nil := by
  intro hnil
  subst hnil
  exact absurd h (by simp [wellShaped])

/-- Destructuring `goodTree` at a node. -/
theorem goodTree_node {v : Char} {l r : Node}
    (h : goodTree (Node.node v l r) = true) :
    goodTree l = true ∧ goodTree r = true ∧ badRight v r = false := by
  rw [goodTree] at h
  simp only [Bool.and_eq_true, Bool.not_eq_true'] at h
  exact ⟨h.1.1, h.1.2, h.2⟩

/-- `rootPrec` of a negation. -/
theorem rootPrec_neg (l r : Node) : rootPrec (Node.node '¬' l r) = 1 := by
  rw [rootPrec, if_neg (by decide)]
  rfl

/-- `rootPrec` of a binary connective. -/
theorem rootPrec_bin {v : Char} (hv : binOp v) (l r : Node) :
    rootPrec (Node.node v l r) = Phase1.presedence v := by
  rw [rootPrec, if_neg (by simp [(binOp_facts hv).1])]

/-- Everything survives a guard that only got weaker. -/
theorem guardOK_mono {p q : Nat} (h : p ≤ q) :
    ∀ {ops : List Char}, guardOK q ops → guardOK p ops := by
  intro ops hg
  cases ops with
  | nil => trivial
  | cons op t =>
    rcases hg with h1 | h2
    · exact Or.inl h1
    · exact Or.inr (by omega)

/-- A `(` protects the whole stack below it. -/
theorem guardOK_lparen (p : Nat) (ops : List Char) : guardOK p ('(' :: ops) :=
  Or.inl rfl

/-- A strictly higher-precedence operator on top keeps the guard. -/
theorem guardOK_cons {p : Nat} {v : Char} (h : p < Phase1.presedence v)
    (ops : List Char) : guardOK p (v :: ops) :=
  Or.inr h

/-- On the left of a binary connective, omitted parentheses mean the child's
root binds at least as tightly. -/
theorem noparens_left {l r : Node} {v : Char} (hwl : wellShaped l = true)
    (hv : binOp v)
    (h : Phase2.needs_parentheses l (Node.node v l r) true = false) :
    rootPrec l ≤ Phase1.presedence v := by
  obtain ⟨-, -, -, -, -, -, hv2, -, hveq⟩ := binOp_facts hv
  cases l with
  | nil => exact absurd rfl (wellShaped_ne_nil hwl)
  | node c cl cr =>
    rcases wellShaped_cases hwl with ⟨ha, -, -⟩ | ⟨rfl, -, -⟩ | ⟨hbc, -, -⟩
    · rw [rootPrec, if_pos ha]
      omega
    · rw [rootPrec_neg]
      omega
    · obtain ⟨hca, hcn, -, -, -, -, -, -, hceq⟩ := binOp_facts hbc
      rw [rootPrec, if_neg (by simp [hca])]
      rw [Phase2.needs_parentheses] at h
      rw [if_neg (by simp [hca, hcn])] at h
      by_cases hgt : Phase2.precedence c > Phase2.precedence v
      · rw [if_pos hgt] at h
        exact absurd h (by simp)
      · rw [hceq, hveq] at hgt
        omega

/-- On the right of a binary connective over the good fragment, omitted
parentheses mean the child's root binds strictly more tightly. -/
theorem noparens_right {l r : Node} {v : Char} (hwr : wellShaped r = true)
    (hv : binOp v) (hbad : badRight v r = false)
    (h : Phase2.needs_parentheses r (Node.node v l r) false = false) :
    rootPrec r < Phase1.presedence v := by
  obtain ⟨-, -, -, -, -, -, hv2, -, hveq⟩ := binOp_facts hv
  cases r with
  | nil => exact absurd rfl (wellShaped_ne_nil hwr)
  | node c cl cr =>
    rcases wellShaped_cases hwr with ⟨ha, -, -⟩ | ⟨rfl, -, -⟩ | ⟨hbc, -, -⟩
    · rw [rootPrec, if_pos ha]
      omega
    · rw [rootPrec_neg]
      omega
    · obtain ⟨hca, hcn, -, -, -, -, hc2, -, hceq⟩ := binOp_facts hbc
      rw [rootPrec, if_neg (by simp [hca])]
      rw [Phase2.needs_parentheses] at h
      rw [if_neg (by simp [hca, hcn])] at h
      by_cases hgt : Phase2.precedence c > Phase2.precedence v
      · rw [if_pos hgt] at h
        exact absurd h (by simp)
      · rw [if_neg hgt] at h
        by_cases heq : Phase2.precedence c = Phase2.precedence v
        · exfalso
          have hcv : c = v := binOp_prec_inj hbc hv (by rw [← hceq, ← hveq, heq])
          subst hcv
          rw [if_pos heq] at h
          rcases hbc with rfl | rfl | rfl | rfl
          · simp [badRight] at hbad
          · simp [badRight] at hbad
          · rw [if_pos (by simp)] at h
            exact absurd h (by simp)
          · rw [if_pos (by simp)] at h
            exact absurd h (by simp)
        · rw [hceq, hveq] at hgt heq
          omega

/-- Printing a letter leaf. -/
theorem print_alpha {v : Char} (h : v.isAlpha = true) (l r : Node) :
    Phase2.tree_to_string (Node.node v l r) = [v] := by
  rw [Phase2.tree_to_string, if_pos h]

/-- Printing a negation of a nonempty operand. -/
theorem print_neg {r : Node} (hr : Phase2.tree_to_string r ≠ []) (l : Node) :
    Phase2.tree_to_string (Node.node '¬' l r) =
      if Phase2.isBinaryNode r then
        '¬' :: '(' :: Phase2.tree_to_string r ++ [')']
      else '¬' :: Phase2.tree_to_string r := by
  rw [Phase2.tree_to_string, if_neg (by decide), if_pos rfl]
  simp only [if_neg hr]

/-- Printing a binary connective of two nonempty real operands. -/
theorem print_bin {v : Char} (hv : binOp v) {l r : Node}
    (hlnil : l ≠ Node.nil) (hrnil : r ≠ Node.nil)
    (hl : Phase2.tree_to_string l ≠ []) (hr : Phase2.tree_to_string r ≠ []) :
    Phase2.tree_to_string (Node.node v l r) =
      (if Phase2.needs_parentheses l (Node.node v l r) true then
        '(' :: Phase2.tree_to_string l ++ [')']
      else Phase2.tree_to_string l) ++
      ' ' :: v :: ' ' ::
      (if Phase2.needs_parentheses r (Node.node v l r) false then
        '(' :: Phase2.tree_to_string r ++ [')']
      else Phase2.tree_to_string r) := by
  obtain ⟨hva, hvn, -, -, -, -, -, -, -⟩ := binOp_facts hv
  rw [Phase2.tree_to_string, if_neg (by simp [hva]), if_neg hvn]
  simp only [if_neg (by simp [hl] : ¬(Phase2.tree_to_string l = [] ∧
    Phase2.tree_to_string r = [])), if_neg hl, if_neg hr]
  simp only [ne_eq, hlnil, hrnil, not_false_eq_true, true_and]

/-- `tokenize` of the empty string. -/
theorem tokenize_nil : Phase1.tokenize [] = [] := rfl

/-- `tokenize` of a lone closing parenthesis. -/
theorem tokenize_rparen : Phase1.tokenize [')'] = [')'] := rfl

/-- `tokenize` drops a leading space. -/
theorem tokenize_space (l : List Char) :
    Phase1.tokenize (' ' :: l) = Phase1.tokenize l := by
  simp [Phase1.tokenize, List.filter_cons]

/-- `foldlM` over `Option` on an empty token list. -/
theorem foldlM_nil_opt {σ α : Type} (f : σ → α → Option σ) (st : σ) :
    List.foldlM f st [] = some st := rfl

/-- `foldlM` over `Option` on a cons. -/
theorem foldlM_cons_opt {σ α : Type} (f : σ → α → Option σ) (c : α)
    (l : List α) (st : σ) :
    List.foldlM f st (c :: l) =
      Option.bind (f st c) (fun s2 => List.foldlM f s2 l) := rfl

/-- `foldlM` over `Option` splits at an append. -/
theorem foldlM_append_opt {σ α : Type} (f : σ → α → Option σ) :
    ∀ (a b : List α) (st : σ),
    List.foldlM f st (a ++ b) =
      Option.bind (List.foldlM f st a) (fun s2 => List.foldlM f s2 b) := by
  intro a
  induction a with
  | nil => intro b st; rfl
  | cons c t ih =>
    intro b st
    rw [List.cons_append, foldlM_cons_opt, foldlM_cons_opt]
    cases f st c with
    | none => rfl
    | some s2 => exact ih b s2

/-- `Option.bind` on a `some`. -/
theorem bind_some_opt {α β : Type} (a : α) (f : α → Option β) :
    Option.bind (some a) f = f a := rfl

/-- `Option.map` on a `some`. -/
theorem map_some_opt {α β : Type} (a : α) (f : α → β) :
    Option.map f (some a) = some (f a) := rfl

/-- `isBinaryNode` tests the root character. -/
theorem isBinaryNode_eq_true (c : Char) (a b : Node) :
    Phase2.isBinaryNode (Node.node c a b) = true ↔
      (c = '∧' ∨ c = '∨' ∨ c = '→' ∨ c = '↔') := by
  simp [Phase2.isBinaryNode]

/-- A letter root is not a binary node. -/
theorem isBinaryNode_alpha {c : Char} (h : c.isAlpha = true) (a b : Node) :
    Phase2.isBinaryNode (Node.node c a b) = false := by
  cases hx : Phase2.isBinaryNode (Node.node c a b) with
  | false => rfl
  | true =>
    rcases (isBinaryNode_eq_true c a b).mp hx with rfl | rfl | rfl | rfl <;>
      exact absurd h (by decide)

/-- Running the token loop over a parenthesised printed subtree from any
state pushes exactly that subtree: the `(` protects the stack, the recursive
run leaves its pending operators above it, and the `)` reduces them all. -/
theorem run_paren_child {s : Node}
    (hrun : ∀ (ops : List Char) (props : List Node), guardOK (rootPrec s) ops →
      ∃ (extra : List Char) (props2 : List Node),
        (Phase1.tokenize (Phase2.tree_to_string s)).foldlM Phase1.parseStep (ops, props)
          = some (extra ++ ops, props2) ∧
        Phase1.popAll extra props2 = some (s :: props) ∧
        ∀ o ∈ extra, o ≠ '(' ∧ Phase1.presedence o ≤ rootPrec s)
    (ops : List Char) (props : List Node) :
    (Phase1.tokenize ('(' :: Phase2.tree_to_string s ++ [')'])).foldlM
        Phase1.parseStep (ops, props) = some (ops, s :: props) := by
  obtain ⟨extra, props2, hfold, hpop, hex⟩ :=
    hrun ('(' :: ops) props (guardOK_lparen _ _)
  rw [tokenize_append, tokenize_rparen, tokenize_cons (by decide),
    foldlM_append_opt, foldlM_cons_opt, parseStep_lparen, bind_some_opt,
    hfold, bind_some_opt, foldlM_cons_opt, parseStep_rparen,
    popUntilParen_extra extra (fun o ho => (hex o ho).1) hpop,
    bind_some_opt, foldlM_nil_opt]

/-- Core simulation lemma: running the `parse_tree` token loop over the
printed form of a well-shaped tree of the good fragment, from any machine
state whose operator stack is guarded at the tree's root precedence, extends
the stack by pending operators of at most the root precedence whose reduction
pushes exactly that tree onto the operand stack. -/
theorem print_run : ∀ (t : Node), wellShaped t = true → goodTree t = true →
    ∀ (ops : List Char) (props : List Node), guardOK (rootPrec t) ops →
    ∃ (extra : List Char) (props2 : List Node),
      (Phase1.tokenize (Phase2.tree_to_string t)).foldlM Phase1.parseStep (ops, props)
        = some (extra ++ ops, props2) ∧
      Phase1.popAll extra props2 = some (t :: props) ∧
      ∀ o ∈ extra, o ≠ '(' ∧ Phase1.presedence o ≤ rootPrec t := by
  intro t
  induction t with
  | nil => intro h; exact absurd h (by simp [wellShaped])
  | node v l r ihl ihr =>
    intro hws hgood ops props hg
    obtain ⟨hgl, hgr, hbad⟩ := goodTree_node hgood
    rcases wellShaped_cases hws with ⟨ha, rfl, rfl⟩ | ⟨rfl, rfl, hwr⟩ | ⟨hbv, hwl, hwr⟩
    · refine ⟨[], Node.node v Node.nil Node.nil :: props, ?_, rfl, by simp⟩
      rw [print_alpha ha, tokenize_cons (alpha_facts ha).2.2.2, tokenize_nil,
        foldlM_cons_opt, parseStep_alpha ha, bind_some_opt, foldlM_nil_opt]
      rfl
    · have hrne := print_nonempty hwr
      have hstop : Phase1.popWhilePrec '¬' ops props = some (ops, props) :=
        popWhilePrec_stop (by simp only [rootPrec_neg]; decide) props hg
      cases r with
      | nil => exact absurd rfl (wellShaped_ne_nil hwr)
      | node c rl rr =>
        rcases wellShaped_cases hwr with ⟨hca, rfl, rfl⟩ | ⟨rfl, -, -⟩ | ⟨hbc, -, -⟩
        · refine ⟨['¬'], Node.node c Node.nil Node.nil :: props, ?_,
            by simp [Phase1.popAll, Phase1.applyOp],
            by simp only [rootPrec_neg]; decide⟩
          rw [print_neg hrne Node.nil, if_neg (by simp [isBinaryNode_alpha hca]),
            print_alpha hca, tokenize_cons (by decide),
            tokenize_cons (alpha_facts hca).2.2.2, tokenize_nil,
            foldlM_cons_opt, parseStep_op '¬' (by decide) (by decide) (by decide),
            hstop, map_some_opt, bind_some_opt, foldlM_cons_opt,
            parseStep_alpha hca, bind_some_opt, foldlM_nil_opt]
          rfl
        · simp [badRight] at hbad
        · have hbin : Phase2.isBinaryNode (Node.node c rl rr) = true :=
            (isBinaryNode_eq_true c rl rr).mpr hbc
          refine ⟨['¬'], Node.node c rl rr :: props, ?_,
            by simp [Phase1.popAll, Phase1.applyOp],
            by simp only [rootPrec_neg]; decide⟩
          rw [print_neg hrne Node.nil, if_pos hbin, List.cons_append,
            tokenize_cons (by decide), foldlM_cons_opt,
            parseStep_op '¬' (by decide) (by decide) (by decide), hstop,
            map_some_opt, bind_some_opt,
            run_paren_child (ihr hwr hgr) ('¬' :: ops) props]
          rfl
    · obtain ⟨hva, hvn, hvop, hvlp, hvrp, hvsp, hv2, hv5, hveq⟩ := binOp_facts hbv
      have hlnil := wellShaped_ne_nil hwl
      have hrnil := wellShaped_ne_nil hwr
      have hlne := print_nonempty hwl
      have hrne := print_nonempty hwr
      have hpt : rootPrec (Node.node v l r) = Phase1.presedence v := rootPrec_bin hbv l r
      have hvle : Phase1.presedence v ≤ rootPrec (Node.node v l r) := hpt.ge
      have hL : ∃ (extraL : List Char) (propsL : List Node),
          (Phase1.tokenize (if Phase2.needs_parentheses l (Node.node v l r) true then
              '(' :: Phase2.tree_to_string l ++ [')']
            else Phase2.tree_to_string l)).foldlM Phase1.parseStep (ops, props)
            = some (extraL ++ ops, propsL) ∧
          Phase1.popAll extraL propsL = some (l :: props) ∧
          ∀ o ∈ extraL, o ≠ '(' ∧ Phase1.presedence o ≤ Phase1.presedence v := by
        cases hnpl : Phase2.needs_parentheses l (Node.node v l r) true with
        | false =>
          have hguard : guardOK (rootPrec l) ops :=
            guardOK_mono (le_trans (noparens_left hwl hbv hnpl) hvle) hg
          obtain ⟨extraL, propsL, hfoldL, hpopL, hexL⟩ :=
            ihl hwl hgl ops props hguard
          refine ⟨extraL, propsL, ?_, hpopL, ?_⟩
          · rw [if_neg (by simp [hnpl])]
            exact hfoldL
          · intro o ho
            exact ⟨(hexL o ho).1,
              le_trans (hexL o ho).2 (noparens_left hwl hbv hnpl)⟩
        | true =>
          refine ⟨[], l :: props, ?_, rfl, by simp⟩
          rw [if_pos rfl]
          exact run_paren_child (ihl hwl hgl) ops props
      have hR : ∃ (extraR : List Char) (props2 : List Node),
          (Phase1.tokenize (if Phase2.needs_parentheses r (Node.node v l r) false then
              '(' :: Phase2.tree_to_string r ++ [')']
            else Phase2.tree_to_string r)).foldlM Phase1.parseStep (v :: ops, l :: props)
            = some (extraR ++ ops, props2) ∧
          Phase1.popAll extraR props2 = some (Node.node v l r :: props) ∧
          ∀ o ∈ extraR, o ≠ '(' ∧ Phase1.presedence o ≤ Phase1.presedence v := by
        cases hnpr : Phase2.needs_parentheses r (Node.node v l r) false with
        | false =>
          have hguard : guardOK (rootPrec r) (v :: ops) :=
            guardOK_cons (noparens_right hwr hbv hbad hnpr) ops
          obtain ⟨extraR, propsR, hfoldR, hpopR, hexR⟩ :=
            ihr hwr hgr (v :: ops) (l :: props) hguard
          refine ⟨extraR ++ [v], propsR, ?_, ?_, ?_⟩
          · rw [if_neg (by simp [hnpr]), List.append_assoc, List.singleton_append]
            exact hfoldR
          · rw [popAll_append, hpopR, bind_some_opt]
            simp [Phase1.popAll, Phase1.applyOp, hvn]
          · intro o ho
            rcases List.mem_append.mp ho with h1 | h1
            · refine ⟨(hexR o h1).1, ?_⟩
              have h2 := (hexR o h1).2
              have h3 := noparens_right hwr hbv hbad hnpr
              omega
            · obtain rfl := List.mem_singleton.mp h1
              exact ⟨hvlp, le_refl _⟩
        | true =>
          refine ⟨[v], r :: l :: props, ?_, ?_, ?_⟩
          · rw [if_pos rfl, List.singleton_append]
            exact run_paren_child (ihr hwr hgr) (v :: ops) (l :: props)
          · simp [Phase1.popAll, Phase1.applyOp, hvn]
          · intro o ho
            obtain rfl := List.mem_singleton.mp ho
            exact ⟨hvlp, le_refl _⟩
      obtain ⟨extraL, propsL, hfoldL, hpopL, hexL⟩ := hL
      obtain ⟨extraR, props2, hfoldR, hpopR, hexR⟩ := hR
      refine ⟨extraR, props2, ?_, hpopR, ?_⟩
      · rw [print_bin hbv hlnil hrnil hlne hrne, tokenize_append, tokenize_space,
          tokenize_cons hvsp, tokenize_space, foldlM_append_opt, hfoldL,
          bind_some_opt, foldlM_cons_opt, parseStep_op v hvlp hvrp hvop,
          popWhilePrec_extra hvle extraL hexL hg hpopL, map_some_opt]
        dsimp only
        rw [bind_some_opt, hfoldR]
      · intro o ho
        refine ⟨(hexR o ho).1, ?_⟩
        rw [hpt]
        exact (hexR o ho).2

/-- The atomic formula `r`. -/
def atomR : Node := Node.node 'r' Node.nil Node.nil

/-- C2: printing a parsed formula and reparsing the output does not in general
return the original tree.  `p∧(q∧r)` is accepted by the validator and parses
to `p ∧ (q ∧ r)`; phase 2 prints that tree as `p ∧ q ∧ r` (no parentheses
around an equal-precedence right child of `∧`), and reparsing that output
yields the left-associated `(p ∧ q) ∧ r`, a different tree. -/
theorem C2_roundtrip_fails :
    Phase1.is_validS "p∧(q∧r)" = true ∧
    Phase1.parse_treeS "p∧(q∧r)" =
      some (Node.node '∧' atomP (Node.node '∧' atomQ atomR)) ∧
    Phase2.tree_to_stringS (Node.node '∧' atomP (Node.node '∧' atomQ atomR)) =
      "p ∧ q ∧ r" ∧
    Phase1.parse_treeS "p ∧ q ∧ r" =
      some (Node.node '∧' (Node.node '∧' atomP atomQ) atomR) ∧
    Node.node '∧' (Node.node '∧' atomP atomQ) atomR ≠
      Node.node '∧' atomP (Node.node '∧' atomQ atomR) := by
  exact ⟨by decide, by decide, by decide, by decide, by decide⟩

/-- C2 (amended): on the round-trip-safe fragment the round trip is exact.
For every well-shaped formula tree (single-letter leaves, `¬` storing its
operand in the right child, binary `∧ ∨ → ↔` nodes) that contains no `∧` whose
right child is an `∧`, no `∨` whose right child is an `∨`, and no `¬` applied
directly to a `¬`, parsing the printed string returns exactly the original
tree. -/
theorem C2_roundtrip_amended (t : Node) (hws : wellShaped t = true)
    (hg : goodTree t = true) :
    Phase1.parse_tree (Phase2.tree_to_string t) = some t := by
  obtain ⟨extra, props2, hfold, hpop, -⟩ := print_run t hws hg [] [] trivial
  rw [List.append_nil] at hfold
  rw [Phase1.parse_tree, hfold]
  dsimp only
  rw [hpop]

/-- Witness: the amended C2 round-trip theorem applied to the concrete tree
`p ∧ q`. -/
theorem C2_roundtrip_amended_witness :
    wellShaped (Node.node '∧' atomP atomQ) = true ∧
    goodTree (Node.node '∧' atomP atomQ) = true ∧
    Phase1.parse_tree (Phase2.tree_to_string (Node.node '∧' atomP atomQ)) =
      some (Node.node '∧' atomP atomQ) :=
  ⟨by decide, by decide,
    C2_roundtrip_amended (Node.node '∧' atomP atomQ) (by decide) (by decide)⟩

/-! ## Claim C10 — LEM orientation -/

/-- **C10** (refuted — code bug): a numbered line justified by `LEM` is
*never* accepted, in either orientation.  After the zero-reference check
(which rejects), the verifier's LEM branch evaluates
`expected_formula.value != LogicSymbol.OR.value` (phase5/logic.py:382); the
`LogicSymbol` enum has no `OR` member, so the access raises `AttributeError`,
the blanket `except` catches it, and the line is rejected — regardless of the
verifier state, the line map, and the formula. -/
theorem C10_LEM_never_accepted (lm : Nat → Option LogicLine) (st : VState)
    (L : LogicLine) (n : Nat) (hn : L.line_number = some n)
    (hr : L.rule_name = "LEM") :
    lineStep lm L st =
      Except.error ("Invalid Deduction at Line " ++ toString n) := by
  simp [lineStep, hn, hr, ruleKnown, checkRule]

/-- Closed instance of `C10_LEM_never_accepted`: the concrete parsed line
`1    p ∨ ¬p    LEM` is rejected, and the one-line proof consisting of it is
rejected end to end with `"Invalid Deduction at Line 1"`. -/
theorem C10_LEM_never_accepted_witness :
    phase5_processS "1    p ∨ ¬p    LEM" = "Invalid Deduction at Line 1" ∧
    lineStep (fun _ => none)
      ⟨some 1, some (Node.node '∨' atomP (notP atomP)), "LEM", [], 0⟩
      ⟨[], [[]]⟩ =
        Except.error ("Invalid Deduction at Line " ++ toString 1) :=
  ⟨by decide, C10_LEM_never_accepted (fun _ => none) ⟨[], [[]]⟩
      ⟨some 1, some (Node.node '∨' atomP (notP atomP)), "LEM", [], 0⟩ 1 rfl rfl⟩

end LogicProject
